import Mathlib

/-!
Verification of the floor-plan layout engine in `floorplangenerator.py`
(class `StyledPlanGenerator`).

The engine is shallowly embedded: Python floats become rationals (`ℚ`),
mutable lists become explicit state threading, and every call to the
process-wide pseudo-random generator is modelled by an explicit decision
value supplied from outside.  A call `random.randint(a, b)` is modelled by
clamping a seed-determined integer into `[a, b]`: every real execution
corresponds to some decision sequence, and every decision sequence
corresponds to a real execution, so universally quantifying over decisions
is the same as quantifying over random seeds.
-/

set_option autoImplicit false

attribute [local semireducible] Rat.mul Rat.add Rat.sub Rat.inv

namespace FloorPlan

/-- Python `int(q)`: truncation toward zero. -/
def pyInt (q : ℚ) : ℤ := if 0 ≤ q then ⌊q⌋ else -⌊-q⌋

/-- `random.randint a b` modelled on a seed-determined value `v`:
the result is `v` clamped into `[a, b]` (for `a ≤ b` every value of the
interval is realized by some `v`, and no other value is realizable). -/
def randClamp (a b v : ℤ) : ℤ := max a (min b v)

theorem randClamp_le {a b v : ℤ} (h : a ≤ b) : randClamp a b v ≤ b := by
  simp [randClamp]
  omega

theorem le_randClamp (a b v : ℤ) : a ≤ randClamp a b v := by
  simp [randClamp]

/-- An axis-aligned rectangle `(x, y, w, h)` as used throughout
`StyledPlanGenerator` (rooms and partitioner leaves). -/
structure Rect where
  x : ℚ
  y : ℚ
  w : ℚ
  h : ℚ
deriving DecidableEq, Repr

/-- `_recursive_split` (floorplangenerator.py lines 113-123), instrumented
so that each leaf carries the value of `depth` at the moment the leaf was
returned.  `rng` is the stream of seed-determined values feeding the
`random.randint(int(w*0.4), int(w*0.6))` draws; the float products
`w*0.4` / `w*0.6` are modelled exactly as `w * (2/5)` / `w * (3/5)`.
Returns the leaves together with the unconsumed remainder of the stream. -/
def recursiveSplitD (rng : List ℤ) (rect : Rect) (depth : ℕ) :
    List (Rect × ℕ) × List ℤ :=
  match depth with
  | 0 => ([(rect, 0)], rng)
  | d + 1 =>
    if rect.w < 160 ∨ rect.h < 160 then ([(rect, d + 1)], rng)
    else if rect.w > rect.h then
      let s := randClamp (pyInt (rect.w * (2/5))) (pyInt (rect.w * (3/5))) (rng.headD 0)
      let l := recursiveSplitD rng.tail ⟨rect.x, rect.y, (s : ℚ), rect.h⟩ d
      let r := recursiveSplitD l.2 ⟨rect.x + (s : ℚ), rect.y, rect.w - (s : ℚ), rect.h⟩ d
      (l.1 ++ r.1, r.2)
    else
      let s := randClamp (pyInt (rect.h * (2/5))) (pyInt (rect.h * (3/5))) (rng.headD 0)
      let l := recursiveSplitD rng.tail ⟨rect.x, rect.y, rect.w, (s : ℚ)⟩ d
      let r := recursiveSplitD l.2 ⟨rect.x, rect.y + (s : ℚ), rect.w, rect.h - (s : ℚ)⟩ d
      (l.1 ++ r.1, r.2)

/-- `_recursive_split` itself: the returned list of leaf rectangles. -/
def recursiveSplit (rng : List ℤ) (rect : Rect) (depth : ℕ) :
    List Rect × List ℤ :=
  ((recursiveSplitD rng rect depth).1.map Prod.fst, (recursiveSplitD rng rect depth).2)

/-- Membership of a point in the closed rectangle `[x, x+w] × [y, y+h]`. -/
abbrev inClosed (r : Rect) (px py : ℚ) : Prop :=
  r.x ≤ px ∧ px ≤ r.x + r.w ∧ r.y ≤ py ∧ py ≤ r.y + r.h

/-- Membership of a point in the open interior `(x, x+w) × (y, y+h)`. -/
abbrev inOpen (r : Rect) (px py : ℚ) : Prop :=
  r.x < px ∧ px < r.x + r.w ∧ r.y < py ∧ py < r.y + r.h

/-- Two rectangles have disjoint interiors. -/
def openDisjoint (r1 r2 : Rect) : Prop :=
  ∀ px py : ℚ, ¬(inOpen r1 px py ∧ inOpen r2 px py)

theorem pyInt_eq_floor {q : ℚ} (h : 0 ≤ q) : pyInt q = ⌊q⌋ := by
  simp [pyInt, h]

/-- The split point drawn for an axis of length `w ≥ 160` lies in
`[64, w - 64]`: `randint(int(w*0.4), int(w*0.6))` is at least
`⌊0.4·160⌋ = 64` away from both ends. -/
theorem split_bounds {w : ℚ} (hw : 160 ≤ w) (v : ℤ) :
    64 ≤ ((randClamp (pyInt (w * (2/5))) (pyInt (w * (3/5))) v : ℤ) : ℚ) ∧
    ((randClamp (pyInt (w * (2/5))) (pyInt (w * (3/5))) v : ℤ) : ℚ) ≤ w - 64 := by
  have h2 : (0:ℚ) ≤ w * (2/5) := by nlinarith
  have h3 : (0:ℚ) ≤ w * (3/5) := by nlinarith
  rw [pyInt_eq_floor h2, pyInt_eq_floor h3]
  have hab : ⌊w * (2/5)⌋ ≤ ⌊w * (3/5)⌋ := by
    apply Int.floor_le_floor; nlinarith
  constructor
  · have h64 : (64:ℤ) ≤ ⌊w * (2/5)⌋ := by
      rw [Int.le_floor]; push_cast; nlinarith
    have : (64:ℤ) ≤ randClamp ⌊w * (2/5)⌋ ⌊w * (3/5)⌋ v :=
      le_trans h64 (le_randClamp _ _ _)
    exact_mod_cast this
  · have hle : randClamp ⌊w * (2/5)⌋ ⌊w * (3/5)⌋ v ≤ ⌊w * (3/5)⌋ :=
      randClamp_le hab
    have hfl : ((⌊w * (3/5)⌋ : ℤ) : ℚ) ≤ w * (3/5) := Int.floor_le _
    have : ((randClamp ⌊w * (2/5)⌋ ⌊w * (3/5)⌋ v : ℤ) : ℚ) ≤ w * (3/5) := by
      calc ((randClamp ⌊w * (2/5)⌋ ⌊w * (3/5)⌋ v : ℤ) : ℚ)
          ≤ ((⌊w * (3/5)⌋ : ℤ) : ℚ) := by exact_mod_cast hle
        _ ≤ w * (3/5) := hfl
    nlinarith

/-- Every leaf of `_recursive_split` lies inside the input rectangle. -/
theorem splitD_leaf_bounds : ∀ (depth : ℕ) (rng : List ℤ) (rect : Rect)
    (p : Rect × ℕ), p ∈ (recursiveSplitD rng rect depth).1 →
    rect.x ≤ p.1.x ∧ p.1.x + p.1.w ≤ rect.x + rect.w ∧
    rect.y ≤ p.1.y ∧ p.1.y + p.1.h ≤ rect.y + rect.h := by
  intro depth
  induction depth with
  | zero =>
    intro rng rect p hp
    simp only [recursiveSplitD, List.mem_singleton] at hp
    subst hp; simp
  | succ d ih =>
    intro rng rect p hp
    rw [recursiveSplitD] at hp
    by_cases hsmall : rect.w < 160 ∨ rect.h < 160
    · rw [if_pos hsmall] at hp
      simp only [List.mem_singleton] at hp
      subst hp; simp
    · rw [if_neg hsmall] at hp
      push_neg at hsmall
      obtain ⟨hw, hh⟩ := hsmall
      by_cases hwh : rect.w > rect.h
      · rw [if_pos hwh] at hp
        simp only [List.mem_append] at hp
        set s := randClamp (pyInt (rect.w * (2/5))) (pyInt (rect.w * (3/5))) (rng.headD 0) with hs
        have hb := split_bounds hw (rng.headD 0)
        rw [← hs] at hb
        rcases hp with hp | hp
        · have := ih rng.tail ⟨rect.x, rect.y, (s : ℚ), rect.h⟩ p hp
          simp only at this
          refine ⟨this.1, ?_, this.2.2.1, this.2.2.2⟩
          calc p.1.x + p.1.w ≤ rect.x + (s:ℚ) := this.2.1
            _ ≤ rect.x + rect.w := by linarith [hb.2]
        · have := ih _ ⟨rect.x + (s : ℚ), rect.y, rect.w - (s : ℚ), rect.h⟩ p hp
          simp only at this
          refine ⟨?_, ?_, this.2.2.1, this.2.2.2⟩
          · calc rect.x ≤ rect.x + (s:ℚ) := by linarith [hb.1]
              _ ≤ p.1.x := this.1
          · have h2 := this.2.1
            linarith
      · rw [if_neg hwh] at hp
        simp only [List.mem_append] at hp
        set s := randClamp (pyInt (rect.h * (2/5))) (pyInt (rect.h * (3/5))) (rng.headD 0) with hs
        have hb := split_bounds hh (rng.headD 0)
        rw [← hs] at hb
        rcases hp with hp | hp
        · have := ih rng.tail ⟨rect.x, rect.y, rect.w, (s : ℚ)⟩ p hp
          simp only at this
          refine ⟨this.1, this.2.1, this.2.2.1, ?_⟩
          calc p.1.y + p.1.h ≤ rect.y + (s:ℚ) := this.2.2.2
            _ ≤ rect.y + rect.h := by linarith [hb.2]
        · have := ih _ ⟨rect.x, rect.y + (s : ℚ), rect.w, rect.h - (s : ℚ)⟩ p hp
          simp only at this
          refine ⟨this.1, this.2.1, ?_, ?_⟩
          · calc rect.y ≤ rect.y + (s:ℚ) := by linarith [hb.1]
              _ ≤ p.1.y := this.2.2.1
          · have h2 := this.2.2.2
            linarith

/-- The leaves of `_recursive_split` cover exactly the input rectangle:
a point lies in the closed input rectangle iff it lies in some leaf. -/
theorem splitD_cover : ∀ (depth : ℕ) (rng : List ℤ) (rect : Rect)
    (px py : ℚ), inClosed rect px py ↔
      ∃ p ∈ (recursiveSplitD rng rect depth).1, inClosed p.1 px py := by
  intro depth
  induction depth with
  | zero =>
    intro rng rect px py
    simp [recursiveSplitD]
  | succ d ih =>
    intro rng rect px py
    rw [recursiveSplitD]
    by_cases hsmall : rect.w < 160 ∨ rect.h < 160
    · rw [if_pos hsmall]; simp
    · rw [if_neg hsmall]
      push_neg at hsmall
      obtain ⟨hw, hh⟩ := hsmall
      by_cases hwh : rect.w > rect.h
      · rw [if_pos hwh]
        set s := randClamp (pyInt (rect.w * (2/5))) (pyInt (rect.w * (3/5))) (rng.headD 0) with hs
        have hb := split_bounds hw (rng.headD 0)
        rw [← hs] at hb
        simp only [List.mem_append, or_and_right, exists_or, ← ih]
        constructor
        · rintro ⟨h1, h2, h3, h4⟩
          by_cases hpx : px ≤ rect.x + (s:ℚ)
          · exact Or.inl ⟨h1, by simpa using hpx, h3, h4⟩
          · push_neg at hpx
            exact Or.inr ⟨by simp only; linarith, by simp only; linarith, h3, h4⟩
        · rintro (⟨h1, h2, h3, h4⟩ | ⟨h1, h2, h3, h4⟩)
          · simp only at h1 h2 h3 h4
            exact ⟨h1, by linarith [hb.2], h3, h4⟩
          · simp only at h1 h2 h3 h4
            exact ⟨by linarith [hb.1], by linarith, h3, h4⟩
      · rw [if_neg hwh]
        set s := randClamp (pyInt (rect.h * (2/5))) (pyInt (rect.h * (3/5))) (rng.headD 0) with hs
        have hb := split_bounds hh (rng.headD 0)
        rw [← hs] at hb
        simp only [List.mem_append, or_and_right, exists_or, ← ih]
        constructor
        · rintro ⟨h1, h2, h3, h4⟩
          by_cases hpy : py ≤ rect.y + (s:ℚ)
          · exact Or.inl ⟨h1, h2, h3, by simpa using hpy⟩
          · push_neg at hpy
            exact Or.inr ⟨h1, h2, by simp only; linarith, by simp only; linarith⟩
        · rintro (⟨h1, h2, h3, h4⟩ | ⟨h1, h2, h3, h4⟩)
          · simp only at h1 h2 h3 h4
            exact ⟨h1, h2, h3, by linarith [hb.2]⟩
          · simp only at h1 h2 h3 h4
            exact ⟨h1, h2, by linarith [hb.1], by linarith⟩

/-- Distinct leaves of `_recursive_split` have disjoint interiors. -/
theorem splitD_pairwise : ∀ (depth : ℕ) (rng : List ℤ) (rect : Rect),
    List.Pairwise (fun p q => openDisjoint p.1 q.1)
      (recursiveSplitD rng rect depth).1 := by
  intro depth
  induction depth with
  | zero => intro rng rect; simp [recursiveSplitD]
  | succ d ih =>
    intro rng rect
    rw [recursiveSplitD]
    by_cases hsmall : rect.w < 160 ∨ rect.h < 160
    · rw [if_pos hsmall]; simp
    · rw [if_neg hsmall]
      push_neg at hsmall
      obtain ⟨hw, hh⟩ := hsmall
      by_cases hwh : rect.w > rect.h
      · rw [if_pos hwh]
        set s := randClamp (pyInt (rect.w * (2/5))) (pyInt (rect.w * (3/5))) (rng.headD 0) with hs
        refine List.pairwise_append.mpr ⟨ih _ _, ih _ _, ?_⟩
        intro a ha b hb
        have hba := splitD_leaf_bounds d rng.tail ⟨rect.x, rect.y, (s : ℚ), rect.h⟩ a ha
        have hbb := splitD_leaf_bounds d _ ⟨rect.x + (s : ℚ), rect.y, rect.w - (s : ℚ), rect.h⟩ b hb
        simp only at hba hbb
        intro px py ⟨hpa, hpb⟩
        obtain ⟨_, ha2, _, _⟩ := hpa
        obtain ⟨hb1, _, _, _⟩ := hpb
        have : px < rect.x + (s:ℚ) := lt_of_lt_of_le ha2 hba.2.1
        have : rect.x + (s:ℚ) < px := lt_of_le_of_lt hbb.1 hb1
        linarith
      · rw [if_neg hwh]
        set s := randClamp (pyInt (rect.h * (2/5))) (pyInt (rect.h * (3/5))) (rng.headD 0) with hs
        refine List.pairwise_append.mpr ⟨ih _ _, ih _ _, ?_⟩
        intro a ha b hb
        have hba := splitD_leaf_bounds d rng.tail ⟨rect.x, rect.y, rect.w, (s : ℚ)⟩ a ha
        have hbb := splitD_leaf_bounds d _ ⟨rect.x, rect.y + (s : ℚ), rect.w, rect.h - (s : ℚ)⟩ b hb
        simp only at hba hbb
        intro px py ⟨hpa, hpb⟩
        obtain ⟨_, _, _, ha4⟩ := hpa
        obtain ⟨_, _, hb3, _⟩ := hpb
        have : py < rect.y + (s:ℚ) := lt_of_lt_of_le ha4 hba.2.2.2
        have : rect.y + (s:ℚ) < py := lt_of_le_of_lt hbb.2.2.1 hb3
        linarith

/-- C7: for every input bounding rectangle, every depth, and every random
seed, the leaf rectangles returned by `_recursive_split` exactly tile the
input rectangle: their interiors are pairwise disjoint, and a point lies in
the closed input rectangle iff it lies in some leaf (no gaps, no excess). -/
theorem c7_partition_tiles (rng : List ℤ) (rect : Rect) (depth : ℕ) :
    List.Pairwise openDisjoint (recursiveSplit rng rect depth).1 ∧
    ∀ px py : ℚ, inClosed rect px py ↔
      ∃ ℓ ∈ (recursiveSplit rng rect depth).1, inClosed ℓ px py := by
  constructor
  · have h := splitD_pairwise depth rng rect
    simpa [recursiveSplit, List.pairwise_map] using h
  · intro px py
    rw [splitD_cover depth rng rect px py]
    simp [recursiveSplit]

/-- C3 fails as stated: on the input rectangle `(0, 0, 100, 100)` with
depth 1 (for any seed: no random draw happens), the single returned leaf
has width `100 < 160` while the recursion depth at the moment it was
produced was `1 ≠ 0`. -/
theorem c3_counterexample :
    ∃ p ∈ (recursiveSplitD [] ⟨0, 0, 100, 100⟩ 1).1,
      ¬(160 ≤ p.1.w ∧ 160 ≤ p.1.h) ∧ p.2 ≠ 0 := by
  refine ⟨(⟨0, 0, 100, 100⟩, 1), ?_, ?_, ?_⟩
  · rw [recursiveSplitD]
    norm_num
  · intro h
    have := h.1
    norm_num at this
  · decide

/-- C3 amended: every leaf of `_recursive_split` was produced either with
depth 0 or with a dimension already below the 160 minimum (the split is
refused, never forced); moreover a leaf other than the untouched input
rectangle — i.e. one produced by at least one split — has both
dimensions ≥ 64. -/
theorem c3_leaf_size (rng : List ℤ) (rect : Rect) (depth : ℕ)
    (p : Rect × ℕ) (hp : p ∈ (recursiveSplitD rng rect depth).1) :
    (p.2 = 0 ∨ p.1.w < 160 ∨ p.1.h < 160) ∧
    (p.1 = rect ∨ (64 ≤ p.1.w ∧ 64 ≤ p.1.h)) := by
  induction depth generalizing rng rect with
  | zero =>
    simp only [recursiveSplitD, List.mem_singleton] at hp
    subst hp
    exact ⟨Or.inl rfl, Or.inl rfl⟩
  | succ d ih =>
    rw [recursiveSplitD] at hp
    by_cases hsmall : rect.w < 160 ∨ rect.h < 160
    · rw [if_pos hsmall] at hp
      simp only [List.mem_singleton] at hp
      subst hp
      exact ⟨Or.inr hsmall, Or.inl rfl⟩
    · rw [if_neg hsmall] at hp
      push_neg at hsmall
      obtain ⟨hw, hh⟩ := hsmall
      have h64 : (64:ℚ) ≤ 160 := by norm_num
      by_cases hwh : rect.w > rect.h
      · rw [if_pos hwh] at hp
        simp only [List.mem_append] at hp
        set s := randClamp (pyInt (rect.w * (2/5))) (pyInt (rect.w * (3/5))) (rng.headD 0) with hs
        have hb := split_bounds hw (rng.headD 0)
        rw [← hs] at hb
        rcases hp with hp | hp
        · have := ih rng.tail ⟨rect.x, rect.y, (s : ℚ), rect.h⟩ hp
          refine ⟨this.1, Or.inr ?_⟩
          rcases this.2 with h | h
          · rw [h]; exact ⟨hb.1, le_trans h64 hh⟩
          · exact h
        · have := ih _ ⟨rect.x + (s : ℚ), rect.y, rect.w - (s : ℚ), rect.h⟩ hp
          refine ⟨this.1, Or.inr ?_⟩
          rcases this.2 with h | h
          · rw [h]
            exact ⟨by simp only; linarith [hb.2], le_trans h64 hh⟩
          · exact h
      · rw [if_neg hwh] at hp
        simp only [List.mem_append] at hp
        set s := randClamp (pyInt (rect.h * (2/5))) (pyInt (rect.h * (3/5))) (rng.headD 0) with hs
        have hb := split_bounds hh (rng.headD 0)
        rw [← hs] at hb
        rcases hp with hp | hp
        · have := ih rng.tail ⟨rect.x, rect.y, rect.w, (s : ℚ)⟩ hp
          refine ⟨this.1, Or.inr ?_⟩
          rcases this.2 with h | h
          · rw [h]; exact ⟨le_trans h64 hw, hb.1⟩
          · exact h
        · have := ih _ ⟨rect.x, rect.y + (s : ℚ), rect.w, rect.h - (s : ℚ)⟩ hp
          refine ⟨this.1, Or.inr ?_⟩
          rcases this.2 with h | h
          · rw [h]
            exact ⟨le_trans h64 hw, by simp only; linarith [hb.2]⟩
          · exact h

/-- Witness for `c3_leaf_size` at a concrete input. -/
theorem c3_leaf_size_witness :
    ((⟨0, 0, 100, 100⟩, 1) : Rect × ℕ) ∈ (recursiveSplitD [] ⟨0, 0, 100, 100⟩ 1).1 ∧
    ((1 = 0 ∨ (100:ℚ) < 160 ∨ (100:ℚ) < 160) ∧
      ((⟨0, 0, 100, 100⟩ : Rect) = ⟨0, 0, 100, 100⟩ ∨ (64 ≤ (100:ℚ) ∧ 64 ≤ (100:ℚ)))) := by
  have hmem : ((⟨0, 0, 100, 100⟩, 1) : Rect × ℕ) ∈ (recursiveSplitD [] ⟨0, 0, 100, 100⟩ 1).1 := by
    rw [recursiveSplitD]
    norm_num
  exact ⟨hmem, c3_leaf_size [] ⟨0, 0, 100, 100⟩ 1 _ hmem⟩

/-! ### Room selection (`generate_layout`, lines 91-98) -/

/-- The sort key the source actually uses (line 94):
`(r[0]-center_x)**2 + (r[1]-center_y)**2`, the squared distance of the
room rectangle's corner point `(x, y)` from the plan center. -/
def cornerKey (cx cy : ℚ) (r : Rect) : ℚ := (r.x - cx)^2 + (r.y - cy)^2

/-- The key described by the claim: squared Euclidean distance of the room
CENTROID from the plan center.  Used only to compare the source's behaviour
against the claim's wording. -/
def centroidKey (cx cy : ℚ) (r : Rect) : ℚ :=
  (r.x + r.w/2 - cx)^2 + (r.y + r.h/2 - cy)^2

/-- Stable insertion into a descending-sorted list: the new element goes
after all earlier elements whose key is strictly greater, i.e. before the
first element with key `≤` its own — the unique stable position. -/
def insertDescBy (key : Rect → ℚ) (a : Rect) : List Rect → List Rect
  | [] => [a]
  | b :: l => if key a < key b then b :: insertDescBy key a l else a :: b :: l

/-- Stable descending sort by `key`: the semantics of Python's stable
`list.sort(key=…, reverse=True)`. -/
def sortDescBy (key : Rect → ℚ) : List Rect → List Rect
  | [] => []
  | a :: l => insertDescBy key a (sortDescBy key l)

/-- `generate_layout`'s room-culling step (lines 91-98): with more than 3
rooms, sort by `cornerKey` descending (stable) and drop
`randint(1, max(1, int(n*0.4)))` rooms from the front. -/
def selectRooms (kSeed : ℤ) (width height : ℚ) (raw : List Rect) : List Rect :=
  if raw.length > 3 then
    let sorted := sortDescBy (cornerKey (width/2) (height/2)) raw
    let k := randClamp 1 (max 1 (pyInt ((raw.length : ℚ) * (2/5)))) kSeed
    sorted.drop k.toNat
  else raw

/-- The selection step as the claim words it: identical except that rooms
are sorted by centroid distance. -/
def selectRoomsSpec (kSeed : ℤ) (width height : ℚ) (raw : List Rect) : List Rect :=
  if raw.length > 3 then
    let sorted := sortDescBy (centroidKey (width/2) (height/2)) raw
    let k := randClamp 1 (max 1 (pyInt ((raw.length : ℚ) * (2/5)))) kSeed
    sorted.drop k.toNat
  else raw

theorem insertDescBy_perm (key : Rect → ℚ) (a : Rect) :
    ∀ l, (insertDescBy key a l).Perm (a :: l) := by
  intro l
  induction l with
  | nil => simp [insertDescBy]
  | cons b l ih =>
    rw [insertDescBy]
    by_cases h : key a < key b
    · rw [if_pos h]
      exact (ih.cons b).trans (List.Perm.swap a b l)
    · rw [if_neg h]

theorem sortDescBy_perm (key : Rect → ℚ) :
    ∀ l, (sortDescBy key l).Perm l := by
  intro l
  induction l with
  | nil => simp [sortDescBy]
  | cons a l ih =>
    rw [sortDescBy]
    exact (insertDescBy_perm key a _).trans (ih.cons a)

theorem mem_insertDescBy (key : Rect → ℚ) (a x : Rect) (l : List Rect) :
    x ∈ insertDescBy key a l ↔ x = a ∨ x ∈ l := by
  rw [(insertDescBy_perm key a l).mem_iff, List.mem_cons]

theorem insertDescBy_sorted (key : Rect → ℚ) (a : Rect) :
    ∀ l, List.Pairwise (fun u v => key v ≤ key u) l →
      List.Pairwise (fun u v => key v ≤ key u) (insertDescBy key a l) := by
  intro l
  induction l with
  | nil => intro _; simp [insertDescBy]
  | cons b l ih =>
    intro h
    rw [List.pairwise_cons] at h
    rw [insertDescBy]
    by_cases hab : key a < key b
    · rw [if_pos hab]
      rw [List.pairwise_cons]
      refine ⟨?_, ih h.2⟩
      intro x hx
      rcases (mem_insertDescBy key a x l).mp hx with rfl | hx
      · exact le_of_lt hab
      · exact h.1 x hx
    · rw [if_neg hab]
      push_neg at hab
      rw [List.pairwise_cons]
      refine ⟨?_, List.pairwise_cons.mpr h⟩
      intro x hx
      rcases List.mem_cons.mp hx with rfl | hx
      · exact hab
      · exact le_trans (h.1 x hx) hab

theorem sortDescBy_sorted (key : Rect → ℚ) :
    ∀ l, List.Pairwise (fun u v => key v ≤ key u) (sortDescBy key l) := by
  intro l
  induction l with
  | nil => simp [sortDescBy]
  | cons a l ih => exact insertDescBy_sorted key a _ ih

/-- C4 fails as stated: on four concrete rooms of a 900×900 plan with the
forced removal count `k = 1` (here `⌊0.4·4⌋ = 1`, so `k = 1` for every
seed), the source removes the room whose CORNER `(x, y)` is farthest from
the plan center, which differs from removing the room whose CENTROID is
farthest, as the claim describes. -/
theorem c4_counterexample :
    selectRooms 1 900 900
        [⟨0, 0, 900, 900⟩, ⟨700, 700, 10, 10⟩, ⟨449, 449, 2, 2⟩, ⟨448, 450, 1, 1⟩] =
      [⟨700, 700, 10, 10⟩, ⟨448, 450, 1, 1⟩, ⟨449, 449, 2, 2⟩] ∧
    selectRoomsSpec 1 900 900
        [⟨0, 0, 900, 900⟩, ⟨700, 700, 10, 10⟩, ⟨449, 449, 2, 2⟩, ⟨448, 450, 1, 1⟩] =
      [⟨448, 450, 1, 1⟩, ⟨0, 0, 900, 900⟩, ⟨449, 449, 2, 2⟩] ∧
    selectRooms 1 900 900
        [⟨0, 0, 900, 900⟩, ⟨700, 700, 10, 10⟩, ⟨449, 449, 2, 2⟩, ⟨448, 450, 1, 1⟩] ≠
      selectRoomsSpec 1 900 900
        [⟨0, 0, 900, 900⟩, ⟨700, 700, 10, 10⟩, ⟨449, 449, 2, 2⟩, ⟨448, 450, 1, 1⟩] := by
  refine ⟨?_, ?_, ?_⟩ <;> decide

/-- C4 amended: with more than 3 rooms the selector stably sorts the rooms
in descending order of squared distance of their CORNER `(x, y)` (not their
centroid) from the plan center, then removes exactly `k` rooms from the
front, `k` uniform in `[1, max(1, ⌊0.4·n⌋)]`; with at most 3 rooms nothing
is removed. -/
theorem c4_room_selection (kSeed : ℤ) (width height : ℚ) (raw : List Rect) :
    (raw.length ≤ 3 → selectRooms kSeed width height raw = raw) ∧
    (raw.length > 3 →
      ∃ k : ℤ, 1 ≤ k ∧ k ≤ max 1 (pyInt ((raw.length : ℚ) * (2/5))) ∧
        selectRooms kSeed width height raw =
          (sortDescBy (cornerKey (width/2) (height/2)) raw).drop k.toNat ∧
        (sortDescBy (cornerKey (width/2) (height/2)) raw).Perm raw ∧
        List.Pairwise
          (fun u v => cornerKey (width/2) (height/2) v ≤ cornerKey (width/2) (height/2) u)
          (sortDescBy (cornerKey (width/2) (height/2)) raw)) := by
  constructor
  · intro h
    rw [selectRooms, if_neg (by omega)]
  · intro h
    refine ⟨randClamp 1 (max 1 (pyInt ((raw.length : ℚ) * (2/5)))) kSeed,
      le_randClamp _ _ _, randClamp_le ?_, ?_, sortDescBy_perm _ raw, sortDescBy_sorted _ raw⟩
    · exact le_max_left _ _
    · rw [selectRooms, if_pos h]

/-- Witness for `c4_room_selection` at a concrete input (the same rooms as
the counterexample). -/
theorem c4_room_selection_witness :
    ∃ k : ℤ, 1 ≤ k ∧ k ≤ max 1 (pyInt ((4 : ℚ) * (2/5))) ∧
      selectRooms 1 900 900
          [⟨0, 0, 900, 900⟩, ⟨700, 700, 10, 10⟩, ⟨449, 449, 2, 2⟩, ⟨448, 450, 1, 1⟩] =
        (sortDescBy (cornerKey (900/2) (900/2))
            [⟨0, 0, 900, 900⟩, ⟨700, 700, 10, 10⟩, ⟨449, 449, 2, 2⟩, ⟨448, 450, 1, 1⟩]).drop k.toNat ∧
      (sortDescBy (cornerKey (900/2) (900/2))
          [⟨0, 0, 900, 900⟩, ⟨700, 700, 10, 10⟩, ⟨449, 449, 2, 2⟩, ⟨448, 450, 1, 1⟩]).Perm
        [⟨0, 0, 900, 900⟩, ⟨700, 700, 10, 10⟩, ⟨449, 449, 2, 2⟩, ⟨448, 450, 1, 1⟩] ∧
      List.Pairwise
        (fun u v => cornerKey (900/2) (900/2) v ≤ cornerKey (900/2) (900/2) u)
        (sortDescBy (cornerKey (900/2) (900/2))
          [⟨0, 0, 900, 900⟩, ⟨700, 700, 10, 10⟩, ⟨449, 449, 2, 2⟩, ⟨448, 450, 1, 1⟩]) := by
  have h := (c4_room_selection 1 900 900
    [⟨0, 0, 900, 900⟩, ⟨700, 700, 10, 10⟩, ⟨449, 449, 2, 2⟩, ⟨448, 450, 1, 1⟩]).2 (by decide)
  simpa using h

/-! ### Wall graph (`_add_wall`, lines 125-137, and `generate_layout`'s
wall-emission loop, lines 106-111) -/

/-- A wall record: `{"id", "coords" = [x1, y1, x2, y2] (ints),
"is_shared", "has_opening", "room_center"}`. -/
structure Wall where
  id : ℕ
  x1 : ℤ
  y1 : ℤ
  x2 : ℤ
  y2 : ℤ
  is_shared : Bool
  has_opening : Bool
  rcx : ℚ
  rcy : ℚ
deriving DecidableEq, Repr

/-- The duplicate scan of `_add_wall` (lines 127-131): find the first wall
whose four coordinates each differ from the incoming segment's by less
than 5, flag it shared and stop; `none` when no wall matches. -/
def markShared (x1 y1 x2 y2 : ℚ) : List Wall → Option (List Wall)
  | [] => none
  | w :: ws =>
    if |(w.x1 : ℚ) - x1| < 5 ∧ |(w.x2 : ℚ) - x2| < 5 ∧
       |(w.y1 : ℚ) - y1| < 5 ∧ |(w.y2 : ℚ) - y2| < 5
    then some ({ w with is_shared := true } :: ws)
    else (markShared x1 y1 x2 y2 ws).map (w :: ·)

/-- `_add_wall`: normalize endpoint order (swap both coordinate pairs when
`x1 > x2 or y1 > y2`), then either flag an existing near-duplicate as
shared or append a fresh wall with the next id. -/
def addWall (st : List Wall × ℕ) (a1 b1 a2 b2 rcx rcy : ℚ) : List Wall × ℕ :=
  let q := if a1 > a2 ∨ b1 > b2 then (a2, b2, a1, b1) else (a1, b1, a2, b2)
  match q with
  | (x1, y1, x2, y2) =>
    match markShared x1 y1 x2 y2 st.1 with
    | some ws => (ws, st.2)
    | none =>
      (st.1 ++ [{ id := st.2, x1 := pyInt x1, y1 := pyInt y1,
                  x2 := pyInt x2, y2 := pyInt y2,
                  is_shared := false, has_opening := false,
                  rcx := rcx, rcy := rcy }], st.2 + 1)

/-- The wall-emission loop of `generate_layout` (lines 106-111): each room
contributes its four boundary segments in the fixed order top, right,
bottom, left, carrying the room's centroid; the wall id counter starts
at 100.  (The room-label assignment of lines 100-104 renames rooms but
touches no geometry, so it is not modelled.) -/
def wallsOfRooms (rooms : List Rect) : List Wall × ℕ :=
  rooms.foldl (fun st r =>
    let cx := r.x + r.w / 2
    let cy := r.y + r.h / 2
    let st1 := addWall st r.x r.y (r.x + r.w) r.y cx cy
    let st2 := addWall st1 (r.x + r.w) r.y (r.x + r.w) (r.y + r.h) cx cy
    let st3 := addWall st2 (r.x + r.w) (r.y + r.h) r.x (r.y + r.h) cx cy
    addWall st3 r.x (r.y + r.h) r.x r.y cx cy) ([], 100)

/-- `generate_layout` (lines 84-111): partition the margin-inset rectangle,
cull outer rooms, then build the deduplicated wall list. -/
def generateLayout (width height : ℚ) (rng : List ℤ) (kSeed : ℤ) (depth : ℕ) :
    List Rect × (List Wall × ℕ) :=
  let initial : Rect := ⟨150, 150, width - 2 * 150, height - 2 * 150⟩
  let raw := (recursiveSplit rng initial depth).1
  let rooms := selectRooms kSeed width height raw
  (rooms, wallsOfRooms rooms)

/-! ### The 900×900, depth-1 scenario (claim C2) -/

/-- With the 900×900 default and depth 1, the partitioner always splits the
600×600 inset rectangle once, along the vertical axis (the `w > h`
tie-break favours the height split for the square), at
`s = randint(240, 360)`. -/
theorem split900 (rng : List ℤ) :
    (recursiveSplit rng ⟨150, 150, 600, 600⟩ 1).1 =
      [⟨150, 150, 600, ((randClamp 240 360 (rng.headD 0)) : ℚ)⟩,
       ⟨150, 150 + ((randClamp 240 360 (rng.headD 0)) : ℚ), 600,
        600 - ((randClamp 240 360 (rng.headD 0)) : ℚ)⟩] := by
  have h1 : pyInt ((600:ℚ) * (2/5)) = 240 := by decide
  have h2 : pyInt ((600:ℚ) * (3/5)) = 360 := by decide
  have h3 : pyInt (240:ℚ) = 240 := by decide
  have h4 : pyInt (360:ℚ) = 360 := by decide
  norm_num [recursiveSplit, recursiveSplitD, h1, h2, h3, h4]

/-- Decidable kernel of the C2 wall count check, for one split value. -/
def c2check (s : ℤ) : Bool :=
  let rooms : List Rect := [⟨150, 150, 600, (s:ℚ)⟩, ⟨150, 150 + (s:ℚ), 600, 600 - (s:ℚ)⟩]
  (wallsOfRooms rooms).1.length == 7 &&
  ((wallsOfRooms rooms).1.filter (·.is_shared)).length == 1

set_option maxRecDepth 40000 in
theorem c2check_all : ∀ t : ℕ, t < 121 → c2check ((240:ℤ) + t) = true := by decide

/-- C2 fails as stated: at the concrete seed whose split draw is 300, the
900×900 depth-1 plan has exactly one wall flagged `is_shared` (the wall
between the two rooms), not zero. -/
theorem c2_counterexample :
    ((generateLayout 900 900 [300] 0 1).2.1.filter (·.is_shared)).length = 1 ∧
    ((generateLayout 900 900 [300] 0 1).2.1.filter (·.is_shared)).length ≠ 0 := by
  constructor <;> decide

/-- C2 amended: for every random seed, a 900×900 plan with complexity
depth 1 produces exactly 2 rooms (within the claimed 1-2), 7 walls (at
least the claimed 4), and exactly ONE shared wall — the horizontal wall
the two stacked rooms have in common — never zero. -/
theorem c2_layout_900 (rng : List ℤ) (kSeed : ℤ) :
    (generateLayout 900 900 rng kSeed 1).1.length = 2 ∧
    4 ≤ (generateLayout 900 900 rng kSeed 1).2.1.length ∧
    (generateLayout 900 900 rng kSeed 1).2.1.length = 7 ∧
    ((generateLayout 900 900 rng kSeed 1).2.1.filter (·.is_shared)).length = 1 := by
  have hlo : (240:ℤ) ≤ randClamp 240 360 (rng.headD 0) := le_randClamp _ _ _
  have hhi : randClamp 240 360 (rng.headD 0) ≤ 360 := randClamp_le (by norm_num)
  have hinit : (⟨150, 150, (900:ℚ) - 2 * 150, (900:ℚ) - 2 * 150⟩ : Rect) =
      ⟨150, 150, 600, 600⟩ := by norm_num
  have hcheck : c2check (randClamp 240 360 (rng.headD 0)) = true := by
    have ht : randClamp 240 360 (rng.headD 0) =
        (240:ℤ) + ((randClamp 240 360 (rng.headD 0) - 240).toNat : ℤ) := by omega
    rw [ht]
    exact c2check_all _ (by omega)
  rw [c2check, Bool.and_eq_true, beq_iff_eq, beq_iff_eq] at hcheck
  have hglay : generateLayout 900 900 rng kSeed 1 =
      ([⟨150, 150, 600, ((randClamp 240 360 (rng.headD 0)) : ℚ)⟩,
        ⟨150, 150 + ((randClamp 240 360 (rng.headD 0)) : ℚ), 600,
         600 - ((randClamp 240 360 (rng.headD 0)) : ℚ)⟩],
       wallsOfRooms
        [⟨150, 150, 600, ((randClamp 240 360 (rng.headD 0)) : ℚ)⟩,
         ⟨150, 150 + ((randClamp 240 360 (rng.headD 0)) : ℚ), 600,
          600 - ((randClamp 240 360 (rng.headD 0)) : ℚ)⟩]) := by
    simp only [generateLayout, hinit, split900 rng, selectRooms]
    norm_num
  rw [hglay]
  exact ⟨by simp, by rw [hcheck.1]; omega, hcheck.1, hcheck.2⟩

/-! ### Window placement (`add_windows`, lines 189-210) -/

/-- A window record: `{"id", "wall_id", "coords" (ints), "length"}`. -/
structure Window where
  id : ℕ
  wall_id : ℕ
  x1 : ℤ
  y1 : ℤ
  x2 : ℤ
  y2 : ℤ
  len : ℤ
deriving DecidableEq, Repr

/-- Per-wall random decisions for `add_windows`: `r` is the
`random.random()` draw and `choice` selects the `random.choice(valid_sizes)`
index (reduced mod the number of valid sizes). -/
structure WinDec where
  r : ℚ
  choice : ℕ
deriving DecidableEq, Repr

/-- One iteration of the `add_windows` loop on one wall: skip shared or
opened walls, proceed on `random.random() > 0.4`, keep the standard sizes
strictly below `wall_len - 20`, center the chosen size on the wall
midpoint, flag the wall opened and emit the window record. -/
def windowFor (d : WinDec) (cnt : ℕ) (w : Wall) : Wall × Option Window :=
  if w.is_shared || w.has_opening then (w, none)
  else if d.r > 2/5 then
    let is_horiz := |w.y1 - w.y2| < 5
    let wall_len := if is_horiz then |w.x2 - w.x1| else |w.y2 - w.y1|
    let valid := [30, 45, 60, 75, 90].filter (fun s => s < wall_len - 20)
    if valid.isEmpty then (w, none)
    else
      let win_len : ℤ := valid.getD (d.choice % valid.length) 0
      let mid_x : ℚ := ((w.x1 : ℚ) + w.x2) / 2
      let mid_y : ℚ := ((w.y1 : ℚ) + w.y2) / 2
      let win : Window :=
        if is_horiz then
          { id := cnt, wall_id := w.id,
            x1 := pyInt (mid_x - (win_len : ℚ)/2), y1 := pyInt mid_y,
            x2 := pyInt (mid_x + (win_len : ℚ)/2), y2 := pyInt mid_y, len := win_len }
        else
          { id := cnt, wall_id := w.id,
            x1 := pyInt mid_x, y1 := pyInt (mid_y - (win_len : ℚ)/2),
            x2 := pyInt mid_x, y2 := pyInt (mid_y + (win_len : ℚ)/2), len := win_len }
      ({ w with has_opening := true }, some win)
  else (w, none)

/-- `add_windows`: walk the wall list in order; `i` indexes the per-wall
decisions, `cnt` is the window id counter (2000 at the start). -/
def addWindows (decs : ℕ → WinDec) : ℕ → ℕ → List Wall → List Wall × List Window
  | _, _, [] => ([], [])
  | i, cnt, w :: ws =>
    match windowFor (decs i) cnt w with
    | (w', none) =>
      let rest := addWindows decs (i + 1) cnt ws
      (w' :: rest.1, rest.2)
    | (w', some win) =>
      let rest := addWindows decs (i + 1) (cnt + 1) ws
      (w' :: rest.1, win :: rest.2)

/-! ### Door placement (`add_doors`, lines 212-245) -/

/-- One of the four candidate door walls of a room (line 218), as the
coordinate lists `[x1, x2]`, `[y1, y2]` plus the wall index tag. -/
structure Cand where
  x1 : ℚ
  x2 : ℚ
  y1 : ℚ
  y2 : ℚ
  idx : ℕ
deriving DecidableEq, Repr

/-- The candidate list of line 218, in source order (bottom-edge-at-`y+h`,
right, top-edge-at-`y`, left). -/
def doorCands (r : Rect) : List Cand :=
  [⟨r.x, r.x + r.w, r.y + r.h, r.y + r.h, 0⟩,
   ⟨r.x + r.w, r.x + r.w, r.y, r.y + r.h, 1⟩,
   ⟨r.x, r.x + r.w, r.y, r.y, 2⟩,
   ⟨r.x, r.x, r.y, r.y + r.h, 3⟩]

/-- The point-in-wall test of line 225:
`min(ex1,ex2) <= cx <= max(ex1,ex2) and min(ey1,ey2) <= cy <= max(ey1,ey2)`. -/
abbrev wallContains (w : Wall) (cx cy : ℚ) : Prop :=
  min (w.x1 : ℚ) (w.x2 : ℚ) ≤ cx ∧ cx ≤ max (w.x1 : ℚ) (w.x2 : ℚ) ∧
  min (w.y1 : ℚ) (w.y2 : ℚ) ≤ cy ∧ cy ≤ max (w.y1 : ℚ) (w.y2 : ℚ)

/-- The inner loop of lines 223-226: scan the walls in order and flag the
first wall that contains the midpoint AND does not yet have an opening —
note the test is only on `has_opening`, never on `is_shared`.  (The
door-leaf geometry of lines 229-244 is rendering-only and not modelled.) -/
def doorMark (cx cy : ℚ) : List Wall → Option (List Wall)
  | [] => none
  | w :: ws =>
    if wallContains w cx cy ∧ w.has_opening = false
    then some ({ w with has_opening := true } :: ws)
    else (doorMark cx cy ws).map (w :: ·)

/-- The outer candidate loop of lines 221-227: the first candidate (in
shuffled order) for which the wall scan succeeds wins; returns the updated
wall list and the selected candidate's wall index. -/
def doorScan (walls : List Wall) : List Cand → Option (List Wall × ℕ)
  | [] => none
  | c :: cs =>
    match doorMark ((c.x1 + c.x2) / 2) ((c.y1 + c.y2) / 2) walls with
    | some ws => some (ws, c.idx)
    | none => doorScan walls cs

/-- Per-room random decisions for `add_doors`: `r` is the skip trial draw
(`if random.random() > 0.6: continue`), `perm` the index order produced by
`random.shuffle(candidates)`. -/
structure DoorDec where
  r : ℚ
  perm : List ℕ
deriving DecidableEq, Repr

/-- `add_doors`: for each room, skip on `random.random() > 0.6`, otherwise
shuffle the four candidates and run the scan; on success the selected
wall's `has_opening` is set (line 245). -/
def addDoorsGo (decs : ℕ → DoorDec) : ℕ → List Rect → List Wall → List Wall
  | _, [], walls => walls
  | i, r :: rs, walls =>
    let walls' :=
      if (decs i).r > 3/5 then walls
      else
        let shuffled := (decs i).perm.filterMap (fun j => (doorCands r).get? j)
        match doorScan walls shuffled with
        | some (ws, _) => ws
        | none => walls
    addDoorsGo decs (i + 1) rs walls'

/-- `add_doors` on the room list, decisions indexed from 0. -/
def addDoors (decs : ℕ → DoorDec) (rooms : List Rect) (walls : List Wall) :
    List Wall :=
  addDoorsGo decs 0 rooms walls

/-- `generate()` runs `add_windows` then `add_doors` on the layout's walls
(lines 360-366); window ids start at 2000. -/
def runOpenings (windecs : ℕ → WinDec) (doordecs : ℕ → DoorDec)
    (rooms : List Rect) (walls : List Wall) : List Wall × List Window :=
  let ww := addWindows windecs 0 2000 walls
  (addDoors doordecs rooms ww.1, ww.2)

/-- C1 fails as stated: in the 900×900 depth-1 plan with split 300,
with every window trial skipping and the first room's door trial
succeeding with the candidates in source order, `add_doors` selects the
SHARED wall between the two rooms (its midpoint lies on it and it has no
opening yet — `is_shared` is never consulted) and sets `has_opening` on
it: a shared wall does receive a door. -/
theorem c1_counterexample :
    ∃ w ∈ (runOpenings (fun _ => ⟨0, 0⟩)
        (fun i => if i = 0 then ⟨0, [0, 1, 2, 3]⟩ else ⟨1, [0, 1, 2, 3]⟩)
        (generateLayout 900 900 [300] 0 1).1
        (generateLayout 900 900 [300] 0 1).2.1).1,
      w.is_shared = true ∧ w.has_opening = true := by decide

/-- The door-room skip trial of line 216 (`if random.random() > 0.6:
continue`). -/
abbrev doorTrialSkips (q : ℚ) : Prop := q > 3/5

/-- C5 fails as stated: the set of uniform draws in `[0, 1)` on which the
door placer proceeds is `[0, 3/5]` — of measure 0.6, not the claimed 0.4;
at the concrete draw 1/2 the code proceeds although 1/2 is outside the
lower 40% of the unit interval. -/
theorem c5_counterexample :
    {q : ℚ | 0 ≤ q ∧ q < 1 ∧ ¬ doorTrialSkips q} = Set.Icc 0 (3/5) ∧
    ¬ doorTrialSkips (1/2) ∧ ¬ ((1/2 : ℚ) < 2/5) ∧ (3/5 : ℚ) ≠ 2/5 := by
  refine ⟨?_, by norm_num [doorTrialSkips], by norm_num, by norm_num⟩
  ext q
  simp only [Set.mem_setOf_eq, Set.mem_Icc, doorTrialSkips, not_lt]
  constructor
  · rintro ⟨h1, _, h3⟩; exact ⟨h1, h3⟩
  · rintro ⟨h1, h2⟩; exact ⟨h1, by linarith, h2⟩

/-- C5 amended: the door placer proceeds with a Bernoulli trial of 60%
success (skips with probability 40%): on a uniform draw `q ∈ [0, 1)` it
proceeds iff `q ≤ 0.6`.  On success it enumerates the room's four
candidate walls in random order and selects the first candidate whose
midpoint lies on an existing wall (point-in-segment containment) that does
not yet have an opening. -/
theorem c5_door_placement :
    (∀ q : ℚ, 0 ≤ q → q < 1 → (¬ doorTrialSkips q ↔ q ≤ 3/5)) ∧
    (∀ (decs : ℕ → DoorDec) (i : ℕ) (r : Rect) (rs : List Rect) (walls : List Wall),
      doorTrialSkips (decs i).r →
        addDoorsGo decs i (r :: rs) walls = addDoorsGo decs (i + 1) rs walls) ∧
    (∀ (walls : List Wall) (cands : List Cand),
      (doorScan walls cands).map Prod.snd =
        (cands.find? (fun c => walls.any (fun w =>
          decide (wallContains w ((c.x1 + c.x2) / 2) ((c.y1 + c.y2) / 2)) &&
            !w.has_opening))).map Cand.idx) := by
  have hmark : ∀ (cx cy : ℚ) (walls : List Wall),
      (doorMark cx cy walls).isSome =
        walls.any (fun w => decide (wallContains w cx cy) && !w.has_opening) := by
    intro cx cy walls
    induction walls with
    | nil => simp [doorMark]
    | cons w ws ih =>
      rw [doorMark]
      by_cases h : wallContains w cx cy ∧ w.has_opening = false
      · rw [if_pos h]
        have hc : (decide (wallContains w cx cy) && !w.has_opening) = true := by
          rw [decide_eq_true h.1, h.2]; rfl
        rw [List.any_cons, hc, Bool.true_or, Option.isSome_some]
      · rw [if_neg h]
        have hw : (decide (wallContains w cx cy) && !w.has_opening) = false := by
          rcases Decidable.not_and_iff_or_not.mp h with h1 | h1
          · rw [decide_eq_false h1, Bool.false_and]
          · rw [Bool.not_eq_false] at h1
            rw [h1, Bool.not_true, Bool.and_false]
        rw [List.any_cons, hw, Bool.false_or, ← ih]
        cases doorMark cx cy ws <;> rfl
  refine ⟨?_, ?_, ?_⟩
  · intro q _ _
    constructor
    · intro h; simpa [doorTrialSkips, not_lt] using h
    · intro h; simp [doorTrialSkips, not_lt, h]
  · intro decs i r rs walls h
    rw [addDoorsGo]
    simp only [if_pos h]
  · intro walls cands
    induction cands with
    | nil => simp [doorScan]
    | cons c cs ih =>
      rw [doorScan, List.find?]
      have := hmark ((c.x1 + c.x2) / 2) ((c.y1 + c.y2) / 2) walls
      cases hm : doorMark ((c.x1 + c.x2) / 2) ((c.y1 + c.y2) / 2) walls with
      | none =>
        rw [hm] at this
        simp only [Option.isSome_none] at this
        rw [← this]
        simpa using ih
      | some ws =>
        rw [hm] at this
        simp only [Option.isSome_some] at this
        rw [← this]
        simp

/-- Witness for `c5_door_placement` at concrete inputs. -/
theorem c5_door_placement_witness :
    (¬ doorTrialSkips (1/2) ↔ (1/2 : ℚ) ≤ 3/5) ∧
    addDoorsGo (fun _ => ⟨1, []⟩) 0 [⟨0, 0, 10, 10⟩] [] =
      addDoorsGo (fun _ => ⟨1, []⟩) 1 [] [] :=
  ⟨c5_door_placement.1 (1/2) (by norm_num) (by norm_num),
   c5_door_placement.2.1 (fun _ => ⟨1, []⟩) 0 ⟨0, 0, 10, 10⟩ [] []
     (by norm_num [doorTrialSkips])⟩

/-! ### Unit formatter (`_format_value`, lines 64-82) -/

/-- The plan's unit system (`self.unit_mode`). -/
inductive UnitMode
  | mm
  | mm_suffix
  | m
  | inch
  | ft
deriving DecidableEq, Repr

/-- Round-half-to-even of a rational to an integer, the behaviour of
Python's `round` (modelled exactly on rationals). -/
def bankersRound (q : ℚ) : ℤ :=
  if q - ⌊q⌋ < 1/2 then ⌊q⌋
  else if q - ⌊q⌋ > 1/2 then ⌊q⌋ + 1
  else if ⌊q⌋ % 2 = 0 then ⌊q⌋ else ⌊q⌋ + 1

/-- Decimal rendering of an integer count of tenths, as Python prints a
one-decimal float: 45 tenths → `"4.5"`, 40 tenths → `"4.0"`. -/
def tenthsRepr (t : ℤ) : String :=
  (if t < 0 then "-" else "") ++ toString (t.natAbs / 10) ++ "." ++ toString (t.natAbs % 10)

/-- The apostrophe character used in the foot-inch format string. -/
def apos : String := String.singleton (Char.ofNat 39)

/-- `_format_value`: convert a pixel length to the plan's unit string.
Baseline `10 px = 100 mm`, i.e. `mm_val = int(px_length * 10)`.  Python's
float arithmetic `mm_val / 1000`, `round(·, 1)` and `mm_val / 25.4` are
modelled exactly on rationals; `//` and `%` with the positive divisor 12
are floor division and nonnegative remainder (`Int.ediv` / `Int.emod`). -/
def formatValue (mode : UnitMode) (px : ℚ) : String :=
  let mm_val := pyInt (px * 10)
  match mode with
  | .mm => toString mm_val
  | .mm_suffix => toString mm_val ++ " mm"
  | .m => tenthsRepr (bankersRound ((mm_val : ℚ) * 10 / 1000)) ++ "m"
  | .inch => toString (pyInt ((mm_val : ℚ) * 10 / 254)) ++ "\x22"
  | .ft =>
    let total_inches := pyInt ((mm_val : ℚ) * 10 / 254)
    toString (Int.ediv total_inches 12) ++ apos ++
      toString (Int.emod total_inches 12) ++ "\x22"

/-- C9: formatting a length of 450 pixel-units yields `"4.5m"` in meter
mode (450 px = 4500 mm = 4.5 m), `14'9"` in foot-inch mode
(⌊4500/25.4⌋ = 177 inches = 14 ft 9 in), and `"4500"` in raw-millimeter
mode. -/
theorem c9_unit_format :
    formatValue .m 450 = "4.5m" ∧
    formatValue .ft 450 = "14" ++ apos ++ "9" ++ "\x22" ∧
    formatValue .mm 450 = "4500" := by
  refine ⟨?_, ?_, ?_⟩ <;> decide

/-! ### Dimension annotator (`_line_crosses_walls`, `_check_collision`,
`_draw_dimension_safe`, `add_smart_dimensions`, lines 247-358) -/

/-- An axis-aligned box `[x1, y1, x2, y2]`. -/
structure BBox where
  x1 : ℚ
  y1 : ℚ
  x2 : ℚ
  y2 : ℚ
deriving DecidableEq, Repr

/-- The per-wall body of `_line_crosses_walls` (lines 251-258) for a
dimension line with integer endpoints (every dimension line the generator
builds has integer coordinates: wall and window coordinates are ints and
the offsets are ints): bounding-box pre-filter, then the
perpendicular-intersection rule. -/
def lineCrossesOne (x1 y1 x2 y2 : ℤ) (w : Wall) : Bool :=
  if min x1 x2 > max w.x1 w.x2 ∨ max x1 x2 < min w.x1 w.x2 then false
  else if min y1 y2 > max w.y1 w.y2 ∨ max y1 y2 < min w.y1 w.y2 then false
  else
    let is_dim_horiz := |y1 - y2| < 1
    let is_wall_horiz := |w.y1 - w.y2| < 5
    if is_dim_horiz ∧ ¬ is_wall_horiz then
      decide (min x1 x2 < w.x1 ∧ w.x1 < max x1 x2 ∧
              min w.y1 w.y2 < y1 ∧ y1 < max w.y1 w.y2)
    else if ¬ is_dim_horiz ∧ is_wall_horiz then
      decide (min y1 y2 < w.y1 ∧ w.y1 < max y1 y2 ∧
              min w.x1 w.x2 < x1 ∧ x1 < max w.x1 w.x2)
    else false

/-- `_line_crosses_walls` (lines 247-259): some wall other than the owner
crosses the line. -/
def lineCrossesWalls (walls : List Wall) (myId : ℕ) (x1 y1 x2 y2 : ℤ) : Bool :=
  walls.any (fun w => w.id ≠ myId && lineCrossesOne x1 y1 x2 y2 w)

/-- The overlap test of `_check_collision` (lines 312-317): the NEW box,
inflated by 2 on each side, strictly overlaps the existing box. -/
abbrev overlapInfl (n e : BBox) : Prop :=
  n.x1 - 2 < e.x2 ∧ n.x2 + 2 > e.x1 ∧ n.y1 - 2 < e.y2 ∧ n.y2 + 2 > e.y1

/-- `_check_collision`: the candidate box collides with some registered
box. -/
def checkCollision (boxes : List BBox) (n : BBox) : Bool :=
  boxes.any (fun e => decide (overlapInfl n e))

/-- The estimated label box of `_draw_dimension_safe` (lines 322-328):
8 units per character × 10 units, centered on the dimension-line midpoint,
axes swapped when the line is vertical (`abs(x1-x2) < 1`). -/
def simBox (x1 y1 x2 y2 : ℤ) (val : String) : BBox :=
  let mid_x : ℚ := ((x1 : ℚ) + (x2 : ℚ)) / 2
  let mid_y : ℚ := ((y1 : ℚ) + (y2 : ℚ)) / 2
  let text_len : ℚ := (val.length : ℚ) * 8
  if |x1 - x2| < 1 then
    ⟨mid_x - 5, mid_y - text_len / 2, mid_x + 5, mid_y + text_len / 2⟩
  else
    ⟨mid_x - text_len / 2, mid_y - 5, mid_x + text_len / 2, mid_y + 5⟩

/-- Label placement mode, drawn by `random.choices(['inline', 'above',
'below'], weights=[0.4, 0.3, 0.3])`; the draw is modelled by a plain
selector index. -/
inductive PosMode
  | inline
  | above
  | below
deriving DecidableEq, Repr

/-- Selector index to placement mode. -/
def posModeOf (c : ℕ) : PosMode :=
  match c with
  | 0 => .inline
  | 1 => .above
  | _ => .below

/-- A dimension record's link: `dim_entry[link_type] = link_id`, either a
`"wall_id"` or a `"window_id"` key (mutually exclusive). -/
inductive DimLink
  | wallRef (id : ℕ)
  | windowRef (id : ℕ)
deriving DecidableEq, Repr

/-- A committed dimension record (lines 351-357): id, value string,
position mode, the exported bounding box (renderer box with the y axis
flipped: `[int(x0), int(height - y1), int(x1), int(height - y0)]`), the
dimension line, and the link.  `ownerWall` additionally records the
`owner_wall_id` argument of `_draw_dimension_safe` (for window-linked
segments the source passes the hosting wall's id, line 306). -/
structure DimRec where
  id : ℕ
  val : String
  position : PosMode
  bx1 : ℤ
  by1 : ℤ
  bx2 : ℤ
  by2 : ℤ
  lx1 : ℤ
  ly1 : ℤ
  lx2 : ℤ
  ly2 : ℤ
  link : DimLink
  ownerWall : ℕ
deriving DecidableEq, Repr

/-- A candidate passed to `_draw_dimension_safe`: the offset line, the
formatted value, the link, the owner wall, the label-position draw, and
the box the renderer reports for the drawn text
(`t.get_window_extent(renderer)` — an external measurement, supplied here
as an oracle value). -/
structure DimCand where
  x1 : ℤ
  y1 : ℤ
  x2 : ℤ
  y2 : ℤ
  val : String
  link : DimLink
  ownerWall : ℕ
  posChoice : ℕ
  measured : BBox
deriving DecidableEq, Repr

/-- The annotator's mutable state: the (fixed) wall list, the label-box
registry `self.text_bboxes`, the committed records `self.dimensions`, the
id counter (starting at 1), and the plan height used for the y flip. -/
structure DimState where
  walls : List Wall
  boxes : List BBox
  dims : List DimRec
  counter : ℕ
  height : ℚ
deriving DecidableEq, Repr

/-- The record `_draw_dimension_safe` appends on acceptance
(lines 351-357): the exported bounding box is the renderer-measured box
with the y axis flipped and truncated to ints. -/
def newRec (st : DimState) (c : DimCand) : DimRec :=
  { id := st.counter, val := c.val, position := posModeOf c.posChoice,
    bx1 := pyInt c.measured.x1, by1 := pyInt (st.height - c.measured.y2),
    bx2 := pyInt c.measured.x2, by2 := pyInt (st.height - c.measured.y1),
    lx1 := c.x1, ly1 := c.y1, lx2 := c.x2, ly2 := c.y2,
    link := c.link, ownerWall := c.ownerWall }

/-- `_draw_dimension_safe` (lines 319-358): reject when the offset line
crosses a non-owner wall; reject when the estimated label box collides
with a registered box; otherwise register the renderer-measured box and
append the record. -/
def drawDimensionSafe (st : DimState) (c : DimCand) : DimState :=
  if lineCrossesWalls st.walls c.ownerWall c.x1 c.y1 c.x2 c.y2 then st
  else if checkCollision st.boxes (simBox c.x1 c.y1 c.x2 c.y2 c.val) then st
  else
    { st with
      boxes := st.boxes ++ [c.measured],
      dims := st.dims ++ [newRec st c],
      counter := st.counter + 1 }

/-- A sequence of `_draw_dimension_safe` calls. -/
def runDims (st : DimState) (cands : List DimCand) : DimState :=
  cands.foldl drawDimensionSafe st

/-- Newton iteration for the integer square root, with explicit fuel so
that the recursion is structural. -/
def isqrtGo : ℕ → ℕ → ℕ → ℕ
  | 0, _, g => g
  | f + 1, n, g =>
    let g2 := (g + n / g) / 2
    if g2 < g then isqrtGo f n g2 else g

/-- Integer square root (floor), structurally recursive. -/
def isqrt (n : ℕ) : ℕ := if n = 0 then 0 else isqrtGo n n n

/-- `math.hypot` of an integer displacement.  For the axis-aligned
segments the generator produces (one component zero) this is exactly
`|dx|` or `|dy|`; in general it is the integer floor of the true
hypotenuse. -/
def segLen (dx dy : ℤ) : ℚ :=
  ((isqrt (dx * dx + dy * dy).toNat : ℕ) : ℚ)

/-- Insertion into an ascending-sorted integer list. -/
def insertAscInt (a : ℤ) : List ℤ → List ℤ
  | [] => [a]
  | b :: l => if b ≤ a then b :: insertAscInt a l else a :: b :: l

/-- `sorted(...)` on an integer list (ascending). -/
def sortAscInt (l : List ℤ) : List ℤ := l.foldr insertAscInt []

/-- The plan-wide chain strategy, `random.choice(['detailed', 'simple',
'mixed'])`. -/
inductive Strategy
  | detailed
  | simple
  | mixed
deriving DecidableEq, Repr

/-- Per-wall random decisions for `add_smart_dimensions`: the skip trial
`r`, the mixed-strategy coin, the `randint(-5, 5)` jitter, and the
per-segment label-position draws and renderer-measured boxes. -/
structure DimDec where
  r : ℚ
  coin : ℚ
  jitter : ℤ
  posChoices : ℕ → ℕ
  measured : ℕ → BBox

/-- The body of the `add_smart_dimensions` loop (lines 263-310) for one
wall: skip shared walls and 30% of the rest, resolve the strategy,
compute the outward offset, then either emit the three window-split
segments (detailed + hosted window) or one full-wall segment. -/
def dimOneWall (strat : Strategy) (dec : DimDec) (mode : UnitMode)
    (baseOffset : ℤ) (windows : List Window) (st : DimState) (w : Wall) :
    DimState :=
  if w.is_shared then st
  else if dec.r > 7/10 then st
  else
    let wall_strat := if strat = .mixed then
        (if dec.coin > 1/2 then Strategy.detailed else Strategy.simple)
      else strat
    let attached := windows.find? (fun win => win.wall_id == w.id)
    let is_horizontal := |w.y1 - w.y2| < 5
    let offset_dist := baseOffset + randClamp (-5) 5 dec.jitter
    let wmx : ℚ := ((w.x1 : ℚ) + (w.x2 : ℚ)) / 2
    let wmy : ℚ := ((w.y1 : ℚ) + (w.y2 : ℚ)) / 2
    let bdx : ℤ := if is_horizontal then 0
      else (if wmx > w.rcx then offset_dist else -offset_dist)
    let bdy : ℤ := if is_horizontal then
        (if wmy > w.rcy then offset_dist else -offset_dist)
      else 0
    match attached, wall_strat with
    | some win, .detailed =>
      let segs : List (ℤ × ℤ × ℤ × ℤ × DimLink × ℕ) :=
        if is_horizontal then
          let ps := sortAscInt [w.x1, w.x2, win.x1, win.x2]
          [(ps.getD 0 0, w.y1, ps.getD 1 0, w.y1, .wallRef w.id, 0),
           (ps.getD 1 0, w.y1, ps.getD 2 0, w.y1, .windowRef win.id, 1),
           (ps.getD 2 0, w.y1, ps.getD 3 0, w.y1, .wallRef w.id, 2)]
        else
          let ps := sortAscInt [w.y1, w.y2, win.y1, win.y2]
          [(w.x1, ps.getD 0 0, w.x1, ps.getD 1 0, .wallRef w.id, 0),
           (w.x1, ps.getD 1 0, w.x1, ps.getD 2 0, .windowRef win.id, 1),
           (w.x1, ps.getD 2 0, w.x1, ps.getD 3 0, .wallRef w.id, 2)]
      segs.foldl (fun acc seg =>
        match seg with
        | (sx1, sy1, sx2, sy2, lk, j) =>
          if segLen (sx2 - sx1) (sy2 - sy1) < 5 then acc
          else drawDimensionSafe acc
            { x1 := sx1 + bdx, y1 := sy1 + bdy, x2 := sx2 + bdx, y2 := sy2 + bdy,
              val := formatValue mode (segLen (sx2 - sx1) (sy2 - sy1)),
              link := lk, ownerWall := w.id,
              posChoice := dec.posChoices j, measured := dec.measured j }) st
    | _, _ =>
      drawDimensionSafe st
        { x1 := w.x1 + bdx, y1 := w.y1 + bdy, x2 := w.x2 + bdx, y2 := w.y2 + bdy,
          val := formatValue mode (segLen (w.x2 - w.x1) (w.y2 - w.y1)),
          link := .wallRef w.id, ownerWall := w.id,
          posChoice := dec.posChoices 0, measured := dec.measured 0 }

/-- The wall loop of `add_smart_dimensions`, decisions indexed from 0. -/
def addSmartDimensionsGo (strat : Strategy) (decs : ℕ → DimDec)
    (mode : UnitMode) (baseOffset : ℤ) (windows : List Window) :
    ℕ → DimState → List Wall → DimState
  | _, st, [] => st
  | i, st, w :: ws =>
    addSmartDimensionsGo strat decs mode baseOffset windows (i + 1)
      (dimOneWall strat (decs i) mode baseOffset windows st w) ws

/-- `add_smart_dimensions` (lines 261-310) on a wall list: fresh registry
and record list, dimension id counter starting at 1. -/
def addSmartDimensions (strat : Strategy) (decs : ℕ → DimDec)
    (mode : UnitMode) (baseOffset : ℤ) (windows : List Window)
    (walls : List Wall) (height : ℚ) : DimState :=
  addSmartDimensionsGo strat decs mode baseOffset windows 0
    ⟨walls, [], [], 1, height⟩ walls

/-- The estimated label box reconstructed from a committed record — equal
to the box the collision check used for it, since the record stores the
candidate's line and value verbatim. -/
def estBox (d : DimRec) : BBox := simBox d.lx1 d.ly1 d.lx2 d.ly2 d.val

/-- The box a record exports, as a rational box. -/
def recordedBox (d : DimRec) : BBox :=
  ⟨(d.bx1 : ℚ), (d.by1 : ℚ), (d.bx2 : ℚ), (d.by2 : ℚ)⟩

/-- Case analysis for one `_draw_dimension_safe` call: either the state is
unchanged, or both guards passed and the box and record are appended. -/
theorem drawDimensionSafe_eq (st : DimState) (c : DimCand) :
    drawDimensionSafe st c = st ∨
    (lineCrossesWalls st.walls c.ownerWall c.x1 c.y1 c.x2 c.y2 = false ∧
     checkCollision st.boxes (simBox c.x1 c.y1 c.x2 c.y2 c.val) = false ∧
     drawDimensionSafe st c =
       { st with boxes := st.boxes ++ [c.measured],
                 dims := st.dims ++ [newRec st c],
                 counter := st.counter + 1 }) := by
  rw [drawDimensionSafe]
  split_ifs with h1 h2
  · exact Or.inl rfl
  · exact Or.inl rfl
  · exact Or.inr ⟨by simpa using h1, by simpa using h2, rfl⟩

theorem drawDimensionSafe_walls (st : DimState) (c : DimCand) :
    (drawDimensionSafe st c).walls = st.walls := by
  rcases drawDimensionSafe_eq st c with h | ⟨_, _, h⟩ <;> rw [h]

theorem lineCrossesWalls_false {walls : List Wall} {myId : ℕ}
    {x1 y1 x2 y2 : ℤ} (h : lineCrossesWalls walls myId x1 y1 x2 y2 = false)
    (w : Wall) (hw : w ∈ walls) (hne : w.id ≠ myId) :
    lineCrossesOne x1 y1 x2 y2 w = false := by
  rw [lineCrossesWalls, List.any_eq_false] at h
  have := h w hw
  rw [decide_eq_true hne, Bool.true_and] at this
  rw [Bool.not_eq_true] at this
  exact this

theorem checkCollision_false {boxes : List BBox} {n : BBox}
    (h : checkCollision boxes n = false) (e : BBox) (he : e ∈ boxes) :
    ¬ overlapInfl n e := by
  rw [checkCollision, List.any_eq_false] at h
  have := h e he
  simpa using this

/-- The fold of `add_smart_dimensions` preserves any state property that
every `dimOneWall` step preserves. -/
theorem addSmartDimensionsGo_preserves (P : DimState → Prop)
    (strat : Strategy) (decs : ℕ → DimDec) (mode : UnitMode)
    (baseOffset : ℤ) (windows : List Window)
    (hstep : ∀ (st : DimState) (d : DimDec) (w : Wall), P st →
      P (dimOneWall strat d mode baseOffset windows st w)) :
    ∀ (ws : List Wall) (i : ℕ) (st : DimState), P st →
      P (addSmartDimensionsGo strat decs mode baseOffset windows i st ws) := by
  intro ws
  induction ws with
  | nil => intro i st h; exact h
  | cons w ws ih =>
    intro i st h
    exact ih (i + 1) _ (hstep st (decs i) w h)

/-- `foldl` preserves a property every step preserves. -/
theorem foldlPreserves {α β : Type} (P : β → Prop) (f : β → α → β)
    (hf : ∀ b a, P b → P (f b a)) :
    ∀ (l : List α) (b : β), P b → P (l.foldl f b) := by
  intro l
  induction l with
  | nil => intro b h; exact h
  | cons x xs ih => intro b h; exact ih _ (hf b x h)

/-- `dimOneWall` preserves any state property preserved by every
`drawDimensionSafe` call. -/
theorem dimOneWall_preserves (P : DimState → Prop)
    (hdraw : ∀ (st : DimState) (c : DimCand), P st → P (drawDimensionSafe st c))
    (strat : Strategy) (d : DimDec) (mode : UnitMode) (baseOffset : ℤ)
    (windows : List Window) (st : DimState) (w : Wall) (h : P st) :
    P (dimOneWall strat d mode baseOffset windows st w) := by
  rw [dimOneWall]
  by_cases h1 : w.is_shared = true
  · rw [if_pos h1]; exact h
  · rw [if_neg h1]
    by_cases h2 : d.r > 7/10
    · rw [if_pos h2]; exact h
    · rw [if_neg h2]
      rcases hfind : windows.find? (fun win => win.wall_id == w.id) with _ | win <;>
        cases strat <;> by_cases hcoin : d.coin > 1/2 <;>
        simp only [hfind, hcoin, if_true, if_false, iff_true, iff_false, ite_true,
          ite_false, reduceCtorEq, reduceIte] <;>
        first
          | exact hdraw _ _ h
          | (refine foldlPreserves P _ ?_ _ _ h
             intro b a hb
             rcases a with ⟨sx1, sy1, sx2, sy2, lk, j⟩
             dsimp only
             split_ifs <;> first | exact hb | exact hdraw _ _ hb)

/-- The walls list is never modified during `add_smart_dimensions`. -/
theorem addSmartDimensions_walls (strat : Strategy) (decs : ℕ → DimDec)
    (mode : UnitMode) (baseOffset : ℤ) (windows : List Window)
    (walls : List Wall) (height : ℚ) :
    (addSmartDimensions strat decs mode baseOffset windows walls height).walls
      = walls := by
  have := addSmartDimensionsGo_preserves (fun st => st.walls = walls)
    strat decs mode baseOffset windows
    (fun st d w h => by
      rw [← h]
      exact dimOneWall_preserves (fun st2 => st2.walls = st.walls)
        (fun st2 c h2 => by
          show (drawDimensionSafe st2 c).walls = st.walls
          rw [drawDimensionSafe_walls]
          exact h2) strat d mode
        baseOffset windows st w rfl)
    walls 0 ⟨walls, [], [], 1, height⟩ rfl
  exact this

/-- C8: every record committed by `add_smart_dimensions` has a dimension
line that crosses (per the perpendicular-intersection rule, with its
bounding-box pre-filter) no wall other than the record's owning wall —
for every strategy, every decision sequence, every wall list and every
renderer behaviour. -/
theorem c8_no_wall_crossing (strat : Strategy) (decs : ℕ → DimDec)
    (mode : UnitMode) (baseOffset : ℤ) (windows : List Window)
    (walls : List Wall) (height : ℚ) (d : DimRec)
    (hd : d ∈ (addSmartDimensions strat decs mode baseOffset windows walls height).dims)
    (w : Wall) (hw : w ∈ walls) (hne : w.id ≠ d.ownerWall) :
    lineCrossesOne d.lx1 d.ly1 d.lx2 d.ly2 w = false := by
  have key := addSmartDimensionsGo_preserves
    (fun st => st.walls = walls ∧ ∀ d2 ∈ st.dims, ∀ w2 ∈ walls,
        w2.id ≠ d2.ownerWall →
        lineCrossesOne d2.lx1 d2.ly1 d2.lx2 d2.ly2 w2 = false)
    strat decs mode baseOffset windows
    (fun st dd ww hP => dimOneWall_preserves
      (fun st3 => st3.walls = walls ∧ ∀ d2 ∈ st3.dims, ∀ w2 ∈ walls,
        w2.id ≠ d2.ownerWall →
        lineCrossesOne d2.lx1 d2.ly1 d2.lx2 d2.ly2 w2 = false)
      (fun st2 c h2 => by
        rcases drawDimensionSafe_eq st2 c with heq | ⟨hcross, _, heq⟩
        · rw [heq]; exact h2
        · rw [heq]
          refine ⟨h2.1, ?_⟩
          intro d2 hd2 w2 hw2 hne2
          simp only [List.mem_append, List.mem_singleton] at hd2
          rcases hd2 with hd2 | rfl
          · exact h2.2 d2 hd2 w2 hw2 hne2
          · have : lineCrossesWalls walls c.ownerWall c.x1 c.y1 c.x2 c.y2 = false := by
              rw [← h2.1]; exact hcross
            exact lineCrossesWalls_false this w2 hw2 (by simpa [newRec] using hne2))
      strat dd mode baseOffset windows st ww hP)
    walls 0 ⟨walls, [], [], 1, height⟩ ⟨rfl, by simp⟩
  exact key.2 d hd w hw hne

/-- A concrete annotator run shared by several witnesses: two horizontal
walls, strategy `simple`, every trial succeeding, the renderer reporting
the same 10×10 box for every label. -/
def demoDims : DimState :=
  addSmartDimensions .simple (fun _ => ⟨0, 0, 0, fun _ => 0, fun _ => ⟨0, 0, 10, 10⟩⟩)
    .mm 25 []
    [⟨1, 0, 0, 100, 0, false, false, 50, 50⟩,
     ⟨2, 0, 300, 100, 300, false, false, 50, 350⟩] 900

/-- Witness for `c8_no_wall_crossing`: in the `demoDims` run, the record
owned by wall 1 does not cross wall 2. -/
theorem c8_no_wall_crossing_witness :
    lineCrossesOne 0 (-25) 100 (-25) ⟨2, 0, 300, 100, 300, false, false, 50, 350⟩
      = false := by
  have hd : (⟨1, "1000", .inline, 0, 890, 10, 900, 0, -25, 100, -25,
      .wallRef 1, 1⟩ : DimRec) ∈
      (addSmartDimensions .simple (fun _ => ⟨0, 0, 0, fun _ => 0, fun _ => ⟨0, 0, 10, 10⟩⟩)
        .mm 25 []
        [⟨1, 0, 0, 100, 0, false, false, 50, 50⟩,
         ⟨2, 0, 300, 100, 300, false, false, 50, 350⟩] 900).dims := by decide
  exact c8_no_wall_crossing .simple _ .mm 25 []
    [⟨1, 0, 0, 100, 0, false, false, 50, 50⟩,
     ⟨2, 0, 300, 100, 300, false, false, 50, 350⟩] 900 _ hd
    ⟨2, 0, 300, 100, 300, false, false, 50, 350⟩ (by decide) (by decide)

/-- C6 fails as stated: in the `demoDims` run both labels are committed
(their ESTIMATED boxes are far apart, so the collision check passes), but
the renderer-measured boxes that get RECORDED are identical, so the two
committed records' recorded boxes overlap even after inflating by 2. -/
theorem c6_counterexample :
    demoDims.dims.length = 2 ∧
    ∃ d1 ∈ demoDims.dims, ∃ d2 ∈ demoDims.dims,
      d1.id ≠ d2.id ∧ overlapInfl (recordedBox d1) (recordedBox d2) := by
  constructor <;> decide

/-- The collision-registry invariant `_draw_dimension_safe` maintains:
records and registered boxes in lockstep, and each record's ESTIMATED
label box, inflated by 2, clear of every EARLIER registered box. -/
def BoxInv (st : DimState) : Prop :=
  st.dims.length = st.boxes.length ∧
  List.Pairwise (fun a b => ¬ overlapInfl (estBox b.1) a.2)
    (st.dims.zip st.boxes)

theorem boxInv_draw (st2 : DimState) (c : DimCand) (h2 : BoxInv st2) :
    BoxInv (drawDimensionSafe st2 c) := by
  obtain ⟨hl, hp⟩ := h2
  rcases drawDimensionSafe_eq st2 c with heq | ⟨_, hcoll, heq⟩
  · rw [heq]; exact ⟨hl, hp⟩
  · rw [heq]
    have hlen : (st2.dims ++ [newRec st2 c]).length =
        (st2.boxes ++ [c.measured]).length := by
      rw [List.length_append, List.length_append, hl]
      rfl
    refine ⟨hlen, ?_⟩
    show List.Pairwise (fun a b => ¬ overlapInfl (estBox b.1) a.2)
      ((st2.dims ++ [newRec st2 c]).zip (st2.boxes ++ [c.measured]))
    rw [List.zip_append hl, List.pairwise_append]
    refine ⟨hp, List.pairwise_singleton _ _, ?_⟩
    intro a ha b hb
    simp only [List.zip_cons_cons, List.zip_nil_right,
      List.mem_singleton] at hb
    subst hb
    have ha2 := (List.of_mem_zip ha).2
    show ¬ overlapInfl (estBox (newRec st2 c)) a.2
    have hest : estBox (newRec st2 c) = simBox c.x1 c.y1 c.x2 c.y2 c.val := rfl
    rw [hest]
    exact checkCollision_false hcoll a.2 ha2

/-- C6 amended: the collision registry invariant the code actually
maintains — the registry and record list stay in lockstep, and for any two
committed records the LATER one's estimated label box (8 units per
character × 10 units, centered on its dimension line, inflated by 2 on
each side) does not overlap the EARLIER one's registered measured box.
(The recorded measured boxes themselves can overlap, as the
counterexample shows, since the check uses the estimated box while the
registry stores the measured one.) -/
theorem c6_label_collision (strat : Strategy) (decs : ℕ → DimDec)
    (mode : UnitMode) (baseOffset : ℤ) (windows : List Window)
    (walls : List Wall) (height : ℚ) :
    BoxInv (addSmartDimensions strat decs mode baseOffset windows walls height) := by
  exact addSmartDimensionsGo_preserves BoxInv strat decs mode baseOffset windows
    (fun st d w h2 => dimOneWall_preserves BoxInv boxInv_draw
      strat d mode baseOffset windows st w h2)
    walls 0 ⟨walls, [], [], 1, height⟩ ⟨rfl, by simp [BoxInv]⟩
/-! ### Shared-wall protection (claim C1) -/

/-- With pairwise distinct wall ids, a wall is determined by its id. -/
theorem nodup_id_inj : ∀ (walls : List Wall),
    (walls.map Wall.id).Nodup → ∀ {a b : Wall}, a ∈ walls → b ∈ walls →
    a.id = b.id → a = b := by
  intro walls
  induction walls with
  | nil => intro _ a b ha; exact absurd ha (List.not_mem_nil a)
  | cons w ws ih =>
    intro hnod a b ha hb hid
    rw [List.map_cons, List.nodup_cons] at hnod
    rcases List.mem_cons.mp ha with ha1 | ha1 <;>
      rcases List.mem_cons.mp hb with hb1 | hb1
    · rw [ha1, hb1]
    · subst ha1
      exact absurd (List.mem_map_of_mem Wall.id hb1) (hid ▸ hnod.1)
    · subst hb1
      exact absurd (hid ▸ List.mem_map_of_mem Wall.id ha1) hnod.1
    · exact ih hnod.2 ha1 hb1 hid

/-- Case analysis for one `add_windows` iteration: either the wall is left
alone and no window is emitted, or the wall was unshared and unopened, its
flag is set, and the emitted window references it. -/
theorem windowFor_spec (d : WinDec) (cnt : ℕ) (w : Wall) :
    windowFor d cnt w = (w, none) ∨
    (w.is_shared = false ∧ w.has_opening = false ∧
      ∃ win : Window, win.wall_id = w.id ∧
        windowFor d cnt w = ({ w with has_opening := true }, some win)) := by
  rw [windowFor]
  dsimp only
  split_ifs with h1 h2 h3 h4 <;>
    first
      | exact Or.inl rfl
      | (simp only [Bool.or_eq_true, not_or, Bool.not_eq_true] at h1
         exact Or.inr ⟨h1.1, h1.2, _, rfl, rfl⟩)

/-- Every window `add_windows` emits references a wall of the input list
that was unshared (and unopened) at its turn. -/
theorem addWindows_window_src : ∀ (walls : List Wall) (decs : ℕ → WinDec)
    (i cnt : ℕ) (win : Window), win ∈ (addWindows decs i cnt walls).2 →
    ∃ w ∈ walls, w.id = win.wall_id ∧ w.is_shared = false := by
  intro walls
  induction walls with
  | nil =>
    intro decs i cnt win hwin
    simp [addWindows] at hwin
  | cons w ws ih =>
    intro decs i cnt win hwin
    rcases windowFor_spec (decs i) cnt w with heq | ⟨hsh, hop, win2, hwid, heq⟩ <;>
      rw [addWindows, heq] at hwin
    · simp only at hwin
      obtain ⟨w0, hw0, h⟩ := ih decs (i + 1) cnt win hwin
      exact ⟨w0, List.mem_cons_of_mem w hw0, h⟩
    · simp only [List.mem_cons] at hwin
      rcases hwin with rfl | hwin
      · exact ⟨w, List.mem_cons_self w ws, hwid.symm, hsh⟩
      · obtain ⟨w0, hw0, h⟩ := ih decs (i + 1) (cnt + 1) win hwin
        exact ⟨w0, List.mem_cons_of_mem w hw0, h⟩

/-- `add_windows` maps the wall list positionally: each wall is unchanged
or (if unshared and unopened) gets `has_opening := true`. -/
theorem addWindows_walls_rel : ∀ (walls : List Wall) (decs : ℕ → WinDec)
    (i cnt : ℕ),
    List.Forall₂ (fun w2 w => w2 = w ∨
      (w.is_shared = false ∧ w.has_opening = false ∧
        w2 = { w with has_opening := true }))
      (addWindows decs i cnt walls).1 walls := by
  intro walls
  induction walls with
  | nil => intro decs i cnt; rw [addWindows]; exact List.Forall₂.nil
  | cons w ws ih =>
    intro decs i cnt
    rcases windowFor_spec (decs i) cnt w with heq | ⟨hsh, hop, win2, _, heq⟩ <;>
      rw [addWindows, heq]
    · exact List.Forall₂.cons (Or.inl rfl) (ih decs (i + 1) cnt)
    · exact List.Forall₂.cons (Or.inr ⟨hsh, hop, rfl⟩) (ih decs (i + 1) (cnt + 1))

/-- `foldl` preserves a property every step on a list member preserves. -/
theorem foldlPreservesMem {α β : Type} (P : β → Prop) (f : β → α → β) :
    ∀ (l : List α), (∀ b a, a ∈ l → P b → P (f b a)) →
      ∀ (b : β), P b → P (l.foldl f b) := by
  intro l
  induction l with
  | nil => intro _ b h; exact h
  | cons x xs ih =>
    intro hf b h
    exact ih (fun b2 a ha => hf b2 a (List.mem_cons_of_mem x ha)) _
      (hf b x (List.mem_cons_self x xs) h)

/-- Every committed record links either to an unshared wall of the list or
to a window of the window list. -/
def LinkInv (walls : List Wall) (windows : List Window) (st : DimState) : Prop :=
  ∀ d ∈ st.dims,
    (∀ wid, d.link = DimLink.wallRef wid →
      ∃ w ∈ walls, w.id = wid ∧ w.is_shared = false) ∧
    (∀ wid, d.link = DimLink.windowRef wid → ∃ win ∈ windows, win.id = wid)

/-- A candidate whose link satisfies the same condition. -/
def CandLinkOK (walls : List Wall) (windows : List Window) (c : DimCand) : Prop :=
  (∀ wid, c.link = DimLink.wallRef wid →
    ∃ w ∈ walls, w.id = wid ∧ w.is_shared = false) ∧
  (∀ wid, c.link = DimLink.windowRef wid → ∃ win ∈ windows, win.id = wid)

theorem linkInv_draw {walls : List Wall} {windows : List Window}
    (st : DimState) (c : DimCand) (hc : CandLinkOK walls windows c)
    (h : LinkInv walls windows st) :
    LinkInv walls windows (drawDimensionSafe st c) := by
  rcases drawDimensionSafe_eq st c with heq | ⟨_, _, heq⟩
  · rw [heq]; exact h
  · rw [heq]
    intro d2 hd2
    simp only [List.mem_append, List.mem_singleton] at hd2
    rcases hd2 with hd2 | rfl
    · exact h d2 hd2
    · exact hc

theorem linkInv_dimOneWall (strat : Strategy) (d : DimDec) (mode : UnitMode)
    (baseOffset : ℤ) (windows : List Window) (walls : List Wall)
    (st : DimState) (w : Wall) (hw : w ∈ walls)
    (h : LinkInv walls windows st) :
    LinkInv walls windows (dimOneWall strat d mode baseOffset windows st w) := by
  rw [dimOneWall]
  by_cases h1 : w.is_shared = true
  · rw [if_pos h1]; exact h
  · rw [if_neg h1]
    rw [Bool.not_eq_true] at h1
    by_cases h2 : d.r > 7/10
    · rw [if_pos h2]; exact h
    · rw [if_neg h2]
      have hwref : ∀ wid, DimLink.wallRef w.id = DimLink.wallRef wid →
          ∃ w2 ∈ walls, w2.id = wid ∧ w2.is_shared = false := by
        intro wid hl
        injection hl with hl
        exact ⟨w, hw, hl, h1⟩
      rcases hfind : windows.find? (fun win => win.wall_id == w.id) with _ | win <;>
        cases strat <;> by_cases hcoin : d.coin > 1/2 <;>
        simp only [hfind, hcoin, if_true, if_false, iff_true, iff_false, ite_true,
          ite_false, reduceCtorEq, reduceIte] <;>
        first
          | exact linkInv_draw st _
              ⟨hwref, fun wid hl => DimLink.noConfusion hl⟩ h
          | (have hwin : win ∈ windows := List.mem_of_find?_eq_some hfind
             refine foldlPreservesMem (LinkInv walls windows) _ _ ?_ st h
             intro b a ha hb
             by_cases hhor : |w.y1 - w.y2| < 5 <;>
               simp only [hhor, if_true, if_false, ite_true, ite_false,
                 List.mem_cons, List.not_mem_nil, or_false] at ha <;>
               rcases ha with rfl | rfl | rfl <;>
               dsimp only <;>
               split_ifs <;>
               first
                 | exact hb
                 | exact linkInv_draw b _
                     ⟨hwref, fun wid hl => DimLink.noConfusion hl⟩ hb
                 | exact linkInv_draw b _
                     ⟨fun wid hl => DimLink.noConfusion hl,
                      fun wid hl => by
                        injection hl with hl
                        exact ⟨win, hwin, hl⟩⟩ hb)

theorem linkInv_go (strat : Strategy) (decs : ℕ → DimDec) (mode : UnitMode)
    (baseOffset : ℤ) (windows : List Window) (walls : List Wall) :
    ∀ (ws : List Wall) (i : ℕ) (st : DimState), (∀ w ∈ ws, w ∈ walls) →
      LinkInv walls windows st →
      LinkInv walls windows
        (addSmartDimensionsGo strat decs mode baseOffset windows i st ws) := by
  intro ws
  induction ws with
  | nil => intro i st _ h; exact h
  | cons w ws2 ih =>
    intro i st hsub h
    exact ih (i + 1) _ (fun w2 hw2 => hsub w2 (List.mem_cons_of_mem w hw2))
      (linkInv_dimOneWall strat (decs i) mode baseOffset windows walls st w
        (hsub w (List.mem_cons_self w ws2)) h)

/-- C1 amended: shared walls never receive a window — every emitted window
references an unshared wall, and (given distinct wall ids) never a shared
wall's id — and the window placer leaves shared walls entirely unchanged;
the dimension annotator commits no wall-linked record naming a shared
wall's id, and its window-linked records only reference windows of the
window list.  (The DOOR placer, by contrast, checks only `has_opening` and
can select a shared wall, as the counterexample shows.) -/
theorem c1_shared_wall_protection :
    (∀ (decs : ℕ → WinDec) (i cnt : ℕ) (walls : List Wall),
      (walls.map Wall.id).Nodup →
      ∀ win ∈ (addWindows decs i cnt walls).2, ∀ w ∈ walls,
        w.is_shared = true → win.wall_id ≠ w.id) ∧
    (∀ (decs : ℕ → WinDec) (i cnt : ℕ) (walls : List Wall),
      List.Forall₂ (fun w2 w => w.is_shared = true → w2 = w)
        (addWindows decs i cnt walls).1 walls) ∧
    (∀ (strat : Strategy) (decs : ℕ → DimDec) (mode : UnitMode)
        (baseOffset : ℤ) (windows : List Window) (walls : List Wall)
        (height : ℚ),
      (walls.map Wall.id).Nodup →
      ∀ d ∈ (addSmartDimensions strat decs mode baseOffset windows walls
        height).dims, ∀ w ∈ walls, w.is_shared = true →
        d.link ≠ DimLink.wallRef w.id) ∧
    (∀ (strat : Strategy) (decs : ℕ → DimDec) (mode : UnitMode)
        (baseOffset : ℤ) (windows : List Window) (walls : List Wall)
        (height : ℚ),
      ∀ d ∈ (addSmartDimensions strat decs mode baseOffset windows walls
        height).dims, ∀ wid, d.link = DimLink.windowRef wid →
        ∃ win ∈ windows, win.id = wid) := by
  have hlink : ∀ (strat : Strategy) (decs : ℕ → DimDec) (mode : UnitMode)
      (baseOffset : ℤ) (windows : List Window) (walls : List Wall)
      (height : ℚ),
      LinkInv walls windows
        (addSmartDimensions strat decs mode baseOffset windows walls height) := by
    intro strat decs mode baseOffset windows walls height
    exact linkInv_go strat decs mode baseOffset windows walls walls 0
      ⟨walls, [], [], 1, height⟩ (fun _ hw => hw)
      (fun d2 hd2 => absurd hd2 (List.not_mem_nil d2))
  refine ⟨?_, ?_, ?_, ?_⟩
  · intro decs i cnt walls hnod win hwin w hw hsh heq
    obtain ⟨w0, hw0, hid, hsh0⟩ := addWindows_window_src walls decs i cnt win hwin
    have : w0 = w := nodup_id_inj walls hnod hw0 hw (by rw [hid, heq])
    rw [this] at hsh0
    rw [hsh0] at hsh
    exact Bool.false_ne_true hsh
  · intro decs i cnt walls
    refine (addWindows_walls_rel walls decs i cnt).imp ?_
    intro w2 w hrel hsh
    rcases hrel with rfl | ⟨hsh2, _, _⟩
    · rfl
    · rw [hsh2] at hsh
      exact absurd hsh Bool.false_ne_true
  · intro strat decs mode baseOffset windows walls height hnod d hd w hw hsh heq
    obtain ⟨w0, hw0, hid, hsh0⟩ :=
      (hlink strat decs mode baseOffset windows walls height d hd).1 w.id heq
    have : w0 = w := nodup_id_inj walls hnod hw0 hw hid
    rw [this] at hsh0
    rw [hsh0] at hsh
    exact Bool.false_ne_true hsh
  · intro strat decs mode baseOffset windows walls height d hd wid heq
    exact (hlink strat decs mode baseOffset windows walls height d hd).2 wid heq

/-- Witness for `c1_shared_wall_protection` on a concrete two-wall state
(wall 1 shared, wall 2 not): the placed window and the committed record
both reference wall 2, never the shared wall 1. -/
theorem c1_shared_wall_protection_witness :
    (⟨2000, 2, 35, 300, 65, 300, 30⟩ : Window).wall_id ≠
      (⟨1, 0, 0, 100, 0, true, false, 50, 50⟩ : Wall).id ∧
    (⟨1, "1000", .inline, 0, 890, 10, 900, 0, 275, 100, 275,
        .wallRef 2, 2⟩ : DimRec).link ≠
      DimLink.wallRef (⟨1, 0, 0, 100, 0, true, false, 50, 50⟩ : Wall).id := by
  constructor
  · exact c1_shared_wall_protection.1 (fun _ => ⟨1, 0⟩) 0 2000
      [⟨1, 0, 0, 100, 0, true, false, 50, 50⟩,
       ⟨2, 0, 300, 100, 300, false, false, 50, 350⟩]
      (by decide) _ (by decide) _ (by decide) (by decide)
  · exact c1_shared_wall_protection.2.2.1 .simple
      (fun _ => ⟨0, 0, 0, fun _ => 0, fun _ => ⟨0, 0, 10, 10⟩⟩) .mm 25 []
      [⟨1, 0, 0, 100, 0, true, false, 50, 50⟩,
       ⟨2, 0, 300, 100, 300, false, false, 50, 350⟩]
      900 (by decide) _ (by decide) _ (by decide) (by decide)

/-! ### Wall normalization and flag-only mutation (claim C10) -/

/-- A wall is axis-aligned with normalized endpoints (the endpoint
coordinates are integers by construction: `_add_wall` stores
`int(x1), int(y1), int(x2), int(y2)`, modelled by the `ℤ`-typed fields). -/
def WallNorm (w : Wall) : Prop :=
  (w.x1 = w.x2 ∨ w.y1 = w.y2) ∧ w.x1 ≤ w.x2 ∧ w.y1 ≤ w.y2

/-- Python `int()` is monotone. -/
theorem pyInt_mono {a b : ℚ} (h : a ≤ b) : pyInt a ≤ pyInt b := by
  rw [pyInt, pyInt]
  split_ifs with h1 h2 h3
  · exact Int.floor_le_floor h
  · exact absurd (le_trans h1 h) h2
  · have ha : (0:ℤ) ≤ ⌊-a⌋ := Int.floor_nonneg.mpr (by linarith)
    have hb : (0:ℤ) ≤ ⌊b⌋ := Int.floor_nonneg.mpr h3
    omega
  · have : ⌊-b⌋ ≤ ⌊-a⌋ := Int.floor_le_floor (by linarith)
    omega

/-- The new wall `_add_wall` appends (when no duplicate is found) is
normalized, provided the incoming segment is axis-aligned. -/
theorem addWall_norm (st : List Wall × ℕ) (a1 b1 a2 b2 rcx rcy : ℚ)
    (haxis : a1 = a2 ∨ b1 = b2) (hst : ∀ w ∈ st.1, WallNorm w) :
    ∀ w ∈ (addWall st a1 b1 a2 b2 rcx rcy).1, WallNorm w := by
  intro w hw
  rw [addWall] at hw
  by_cases hswap : a1 > a2 ∨ b1 > b2 <;>
    [rw [if_pos hswap] at hw; rw [if_neg hswap] at hw] <;>
    dsimp only at hw <;>
    rcases hmark : markShared _ _ _ _ st.1 with _ | ws <;>
    rw [hmark] at hw <;> dsimp only at hw
  case pos.none =>
    rw [List.mem_append, List.mem_singleton] at hw
    rcases hw with hw | rfl
    · exact hst w hw
    · have hle : a2 ≤ a1 ∧ b2 ≤ b1 := by
        rcases haxis with heq | heq
        · rcases hswap with hlt | hlt
          · exact absurd heq (ne_of_gt hlt)
          · exact ⟨le_of_eq heq.symm, le_of_lt hlt⟩
        · rcases hswap with hlt | hlt
          · exact ⟨le_of_lt hlt, le_of_eq heq.symm⟩
          · exact absurd heq (ne_of_gt hlt)
      refine ⟨?_, pyInt_mono hle.1, pyInt_mono hle.2⟩
      rcases haxis with heq | heq
      · exact Or.inl (by rw [heq])
      · exact Or.inr (by rw [heq])
  case pos.some =>
    -- a duplicate was flagged: `markShared` only flips `is_shared`
    revert hw
    have : ∀ (l : List Wall) (ws2 : List Wall),
        markShared a2 b2 a1 b1 l = some ws2 → (∀ v ∈ l, WallNorm v) →
        ∀ v ∈ ws2, WallNorm v := by
      intro l
      induction l with
      | nil => intro ws2 hm; rw [markShared] at hm; exact absurd hm (by simp)
      | cons x xs ih =>
        intro ws2 hm hl v hv
        rw [markShared] at hm
        split_ifs at hm with hc
        · rw [Option.some_inj] at hm
          subst hm
          rcases List.mem_cons.mp hv with rfl | hv
          · exact hl x (List.mem_cons_self x xs)
          · exact hl v (List.mem_cons_of_mem x hv)
        · rcases Option.map_eq_some'.mp hm with ⟨ws3, hm3, rfl⟩
          rcases List.mem_cons.mp hv with rfl | hv
          · exact hl v (List.mem_cons_self v xs)
          · exact ih ws3 hm3 (fun u hu => hl u (List.mem_cons_of_mem x hu)) v hv
    exact fun hw => this st.1 ws hmark hst w hw
  case neg.none =>
    rw [List.mem_append, List.mem_singleton] at hw
    rcases hw with hw | rfl
    · exact hst w hw
    · push_neg at hswap
      refine ⟨?_, pyInt_mono hswap.1, pyInt_mono hswap.2⟩
      rcases haxis with heq | heq
      · exact Or.inl (by rw [heq])
      · exact Or.inr (by rw [heq])
  case neg.some =>
    revert hw
    have : ∀ (l : List Wall) (ws2 : List Wall),
        markShared a1 b1 a2 b2 l = some ws2 → (∀ v ∈ l, WallNorm v) →
        ∀ v ∈ ws2, WallNorm v := by
      intro l
      induction l with
      | nil => intro ws2 hm; rw [markShared] at hm; exact absurd hm (by simp)
      | cons x xs ih =>
        intro ws2 hm hl v hv
        rw [markShared] at hm
        split_ifs at hm with hc
        · rw [Option.some_inj] at hm
          subst hm
          rcases List.mem_cons.mp hv with rfl | hv
          · exact hl x (List.mem_cons_self x xs)
          · exact hl v (List.mem_cons_of_mem x hv)
        · rcases Option.map_eq_some'.mp hm with ⟨ws3, hm3, rfl⟩
          rcases List.mem_cons.mp hv with rfl | hv
          · exact hl v (List.mem_cons_self v xs)
          · exact ih ws3 hm3 (fun u hu => hl u (List.mem_cons_of_mem x hu)) v hv
    exact fun hw => this st.1 ws hmark hst w hw

/-- Every wall `wallsOfRooms` (the wall-emission loop of
`generate_layout`) ever stores is axis-aligned and normalized. -/
theorem wallsOfRooms_norm (rooms : List Rect) :
    ∀ w ∈ (wallsOfRooms rooms).1, WallNorm w := by
  rw [wallsOfRooms]
  refine foldlPreserves (fun st => ∀ w ∈ st.1, WallNorm w) _ ?_ rooms
    ([], 100) (by intro w hw; exact absurd hw (List.not_mem_nil w))
  intro st r hst
  refine addWall_norm _ _ _ _ _ _ _ (Or.inl rfl) ?_
  refine addWall_norm _ _ _ _ _ _ _ (Or.inr rfl) ?_
  refine addWall_norm _ _ _ _ _ _ _ (Or.inl rfl) ?_
  exact addWall_norm _ _ _ _ _ _ _ (Or.inr rfl) hst

/-- A door placement leaves a wall unchanged or merely sets its
`has_opening` flag (from `false`). -/
abbrev openRel (w2 w : Wall) : Prop :=
  w2 = w ∨ (w.has_opening = false ∧ w2 = { w with has_opening := true })

theorem forall₂_openRel_refl (l : List Wall) : List.Forall₂ openRel l l :=
  List.forall₂_same.mpr (fun _ _ => Or.inl rfl)

theorem openRel_trans {w3 w2 w1 : Wall} (h32 : openRel w3 w2)
    (h21 : openRel w2 w1) : openRel w3 w1 := by
  rcases h32 with rfl | ⟨h2, rfl⟩
  · exact h21
  · rcases h21 with rfl | ⟨h1, rfl⟩
    · exact Or.inr ⟨h2, rfl⟩
    · exact absurd h2 (by simp)

theorem forall₂_openRel_trans : ∀ {c b a : List Wall},
    List.Forall₂ openRel c b → List.Forall₂ openRel b a →
    List.Forall₂ openRel c a := by
  intro c b a h1 h2
  induction h1 generalizing a with
  | nil => cases h2; exact .nil
  | cons hcb _ ih =>
    cases h2 with
    | cons hba htail => exact .cons (openRel_trans hcb hba) (ih htail)

/-- The wall flagged by `doorMark` only gains `has_opening`. -/
theorem doorMark_rel : ∀ (walls : List Wall) (cx cy : ℚ) (ws : List Wall),
    doorMark cx cy walls = some ws → List.Forall₂ openRel ws walls := by
  intro walls
  induction walls with
  | nil =>
    intro cx cy ws h
    rw [doorMark] at h
    exact absurd h (by simp)
  | cons w l ih =>
    intro cx cy ws h
    rw [doorMark] at h
    split_ifs at h with hc
    · rw [Option.some_inj] at h
      subst h
      exact .cons (Or.inr ⟨hc.2, rfl⟩) (forall₂_openRel_refl l)
    · rcases Option.map_eq_some'.mp h with ⟨ws2, h2, rfl⟩
      exact .cons (Or.inl rfl) (ih cx cy ws2 h2)

theorem doorScan_rel : ∀ (cands : List Cand) (walls ws : List Wall) (idx : ℕ),
    doorScan walls cands = some (ws, idx) → List.Forall₂ openRel ws walls := by
  intro cands
  induction cands with
  | nil =>
    intro walls ws idx h
    rw [doorScan] at h
    exact absurd h (by simp)
  | cons c cs ih =>
    intro walls ws idx h
    rw [doorScan] at h
    rcases hm : doorMark ((c.x1 + c.x2) / 2) ((c.y1 + c.y2) / 2) walls
        with _ | ws2 <;> rw [hm] at h
    · exact ih walls ws idx h
    · rw [Option.some_inj, Prod.mk.injEq] at h
      exact h.1 ▸ doorMark_rel walls _ _ ws2 hm

/-- `add_doors` only ever flips `has_opening` flags. -/
theorem addDoorsGo_rel (decs : ℕ → DoorDec) :
    ∀ (rooms : List Rect) (i : ℕ) (walls : List Wall),
    List.Forall₂ openRel (addDoorsGo decs i rooms walls) walls := by
  intro rooms
  induction rooms with
  | nil => intro i walls; rw [addDoorsGo]; exact forall₂_openRel_refl walls
  | cons r rs ih =>
    intro i walls
    rw [addDoorsGo]
    by_cases hskip : (decs i).r > 3/5
    · rw [if_pos hskip]
      exact ih (i + 1) walls
    · rw [if_neg hskip]
      rcases hscan : doorScan walls
          ((decs i).perm.filterMap fun j => (doorCands r).get? j)
          with _ | p <;> simp only [hscan]
      · exact ih (i + 1) walls
      · rcases p with ⟨ws, idx⟩
        exact forall₂_openRel_trans (ih (i + 1) ws)
          (doorScan_rel _ walls ws idx hscan)

/-- `markShared` (the dedup scan) only flips `is_shared` on one wall. -/
theorem markShared_rel : ∀ (walls : List Wall) (x1 y1 x2 y2 : ℚ)
    (ws : List Wall), markShared x1 y1 x2 y2 walls = some ws →
    List.Forall₂ (fun w2 w => w2 = w ∨ w2 = { w with is_shared := true })
      ws walls := by
  intro walls
  induction walls with
  | nil =>
    intro x1 y1 x2 y2 ws h
    rw [markShared] at h
    exact absurd h (by simp)
  | cons w l ih =>
    intro x1 y1 x2 y2 ws h
    rw [markShared] at h
    split_ifs at h with hc
    · rw [Option.some_inj] at h
      subst h
      exact .cons (Or.inr rfl) (List.forall₂_same.mpr (fun _ _ => Or.inl rfl))
    · rcases Option.map_eq_some'.mp h with ⟨ws2, h2, rfl⟩
      exact .cons (Or.inl rfl) (ih x1 y1 x2 y2 ws2 h2)

/-- Everything of a wall except `has_opening` (and for dedup,
`is_shared`): the id, the four endpoint coordinates and the room center. -/
abbrev CoordsEq (w2 w : Wall) : Prop :=
  w2.id = w.id ∧ w2.x1 = w.x1 ∧ w2.y1 = w.y1 ∧ w2.x2 = w.x2 ∧
  w2.y2 = w.y2 ∧ w2.is_shared = w.is_shared ∧ w2.rcx = w.rcx ∧ w2.rcy = w.rcy

/-- C10: every wall ever stored by the wall builder is axis-aligned with
normalized (sorted) integer endpoints, and every subsequent operation
preserves ids, endpoints and room centers: the dedup scan flips only
`is_shared`, the window and door placers flip only `has_opening`
(positionally, wall for wall), and the annotator never touches the wall
list. -/
theorem c10_wall_integrity :
    (∀ (rooms : List Rect), ∀ w ∈ (wallsOfRooms rooms).1, WallNorm w) ∧
    (∀ (x1 y1 x2 y2 : ℚ) (walls ws : List Wall),
      markShared x1 y1 x2 y2 walls = some ws →
      List.Forall₂ (fun w2 w => w2 = w ∨ w2 = { w with is_shared := true })
        ws walls) ∧
    (∀ (decs : ℕ → WinDec) (i cnt : ℕ) (walls : List Wall),
      List.Forall₂ CoordsEq (addWindows decs i cnt walls).1 walls) ∧
    (∀ (decs : ℕ → DoorDec) (rooms : List Rect) (walls : List Wall),
      List.Forall₂ CoordsEq (addDoors decs rooms walls) walls) ∧
    (∀ (strat : Strategy) (decs : ℕ → DimDec) (mode : UnitMode)
        (baseOffset : ℤ) (windows : List Window) (walls : List Wall)
        (height : ℚ),
      (addSmartDimensions strat decs mode baseOffset windows walls height).walls
        = walls) := by
  refine ⟨wallsOfRooms_norm, ?_, ?_, ?_, addSmartDimensions_walls⟩
  · intro x1 y1 x2 y2 walls ws h
    exact markShared_rel walls x1 y1 x2 y2 ws h
  · intro decs i cnt walls
    refine (addWindows_walls_rel walls decs i cnt).imp ?_
    intro w2 w hrel
    rcases hrel with rfl | ⟨_, _, rfl⟩
    · exact ⟨rfl, rfl, rfl, rfl, rfl, rfl, rfl, rfl⟩
    · exact ⟨rfl, rfl, rfl, rfl, rfl, rfl, rfl, rfl⟩
  · intro decs rooms walls
    refine (addDoorsGo_rel decs rooms 0 walls).imp ?_
    intro w2 w hrel
    rcases hrel with rfl | ⟨_, rfl⟩
    · exact ⟨rfl, rfl, rfl, rfl, rfl, rfl, rfl, rfl⟩
    · exact ⟨rfl, rfl, rfl, rfl, rfl, rfl, rfl, rfl⟩

/-- Witness for `c10_wall_integrity` at concrete inputs: the top wall of a
single room is normalized, and a dedup hit flips exactly `is_shared`. -/
theorem c10_wall_integrity_witness :
    WallNorm ⟨100, 0, 0, 100, 0, false, false, 50, 50⟩ ∧
    List.Forall₂ (fun (w2 w : Wall) => w2 = w ∨ w2 = { w with is_shared := true })
      [⟨100, 0, 0, 100, 0, true, false, 50, 50⟩]
      [⟨100, 0, 0, 100, 0, false, false, 50, 50⟩] := by
  constructor
  · exact c10_wall_integrity.1 ([⟨0, 0, 100, 100⟩] : List Rect)
      ⟨100, 0, 0, 100, 0, false, false, 50, 50⟩ (by decide)
  · exact c10_wall_integrity.2.1 0 0 100 0
      [⟨100, 0, 0, 100, 0, false, false, 50, 50⟩]
      [⟨100, 0, 0, 100, 0, true, false, 50, 50⟩] (by decide)

end FloorPlan
